import Mathlib

/-!
Open-addressed string hash table (`hash_table.cpp`)

A shallow embedding of `Hash_Table_Solution/Hash_Table_Project/hash_table.cpp`.

Conventions of the embedding.

* C `int` and `long` are unbounded integers (`Int`); `/` and `%` are the truncating
  `Int.tdiv` and `Int.tmod`.  `pow` and `floor (sqrt _)` are the exact integer power and
  the exact integer square root.
* A C string is the list of its `char` values before the terminating NUL (`List Int`, so
  both signed and unsigned `char` platforms are covered); `strcmp (a, b) == 0` is list
  equality and `strdup` is the identity.
* An `ht_item*` is a three-way pointer: `NULL`, the address of the global
  `HT_DELETED_ITEM`, or a heap item.  The `items` array is a list of such pointers.
* Loops that the source does not bound take a `fuel` argument; a run that exhausts it
  yields `Res.timeout`.  Undefined behaviour (reading through the `NULL` key of
  `HT_DELETED_ITEM`, indexing outside the array) yields `Res.undefined`.
* Division by zero is not modelled: `size` is at least 47 in every reachable table
  (`reachable_inv`), and the array has exactly `size` cells there.
* The exact arithmetic agrees with the machine arithmetic of the source as long as no
  intermediate value leaves its type: in `hash_function` while every power
  `prime ^ k` is exact in a `double` and every product fits a `long` (keys of a few
  characters), in `ht_get_hash` while `attempt_num * (hash_b + 1)` fits an `int`.  The
  table scenarios below hash keys of one or two characters and stay inside that range;
  the theorems on `hash_function` and on the probe sequence themselves are statements
  of exact arithmetic.
-/

namespace HashTable

/-- Outcome of running a procedure: a normal result, undefined behaviour, or fuel exhausted. -/
inductive Res (α : Type) where
  | ok (a : α)
  | undefined
  | timeout
deriving DecidableEq, Repr

/-- The struct `ht_item` of `hash.h`: an owned key and an owned value. -/
structure ht_item where
  key : List Int
  value : List Int
deriving DecidableEq, Repr

/-- A value of type `ht_item*` as the table uses it. -/
inductive ItemPtr where
  | null
  | deleted
  | item (i : ht_item)
deriving DecidableEq, Repr

/-- The struct `ht_hash_table` of `hash.h`. -/
structure ht_hash_table where
  base_size : Int
  size : Int
  count : Int
  items : List ItemPtr
deriving DecidableEq, Repr

/-- The global `int HT_INITIAL_BASE_SIZE = 47;` (never assigned afterwards). -/
def HT_INITIAL_BASE_SIZE : Int := 47

/-- Conversion of an `int` return value to the declared `bool` return type. -/
def int_to_bool (v : Int) : Bool := v != 0

/-- The `for (int i = 3; i <= floor(sqrt((double)x)); i += 2)` loop of `is_prime`, with
`r` the value of `floor(sqrt((double)x))`.  The first argument bounds the number of
iterations; `is_prime` passes `r`, which the loop never exceeds. -/
def is_prime_loop (x r : Int) : Nat → Int → Bool
  | 0, _ => true
  | n + 1, i =>
    if i ≤ r then
      if x.tmod i = 0 then false else is_prime_loop x r n (i + 2)
    else true

/-- The function `bool is_prime(const int x)`. -/
def is_prime (x : Int) : Bool :=
  if x < 2 then int_to_bool (-1)
  else if x < 4 then int_to_bool 1
  else if x.tmod 2 = 0 then int_to_bool 0
  else is_prime_loop x (Int.ofNat (Nat.sqrt x.toNat)) (Nat.sqrt x.toNat) 3

/-- The function `int next_prime(int x)`: `while (is_prime(x) != true) x++; return x;`. -/
def next_prime : Nat → Int → Res Int
  | 0, _ => Res.timeout
  | fuel + 1, x => if is_prime x != true then next_prime fuel (x + 1) else Res.ok x

/-- The function `ht_new_item`: a fresh item holding copies of `k` and `v`. -/
def ht_new_item (k v : List Int) : ht_item := ⟨k, v⟩

/-- The loop of `hash_function`.  The first argument is the part of the string not yet
read, so that `str_len - (i + 1)` is its length once the current character is removed. -/
def hash_function_loop (prime num_buckets : Int) : List Int → Int → Int
  | [], hash => hash
  | c :: rest, hash =>
    hash_function_loop prime num_buckets rest
      ((hash + prime ^ rest.length * c).tmod num_buckets)

/-- The function `hash_function(str, prime, num_buckets)`, with `(long)pow(prime, k)`
taken as the exact integer power and `long` as unbounded. -/
def hash_function (str : List Int) (prime num_buckets : Int) : Int :=
  hash_function_loop prime num_buckets str 0

/-- The function `ht_get_hash(str, num_buckets, attempt_num)`, with `int` taken as
unbounded (no wrap of `attempt_num * (hash_b + 1)`). -/
def ht_get_hash (str : List Int) (num_buckets attempt_num : Int) : Int :=
  let hash_a := hash_function str 811 num_buckets
  let hash_b := hash_function str 433 num_buckets
  (hash_a + attempt_num * (hash_b + 1)).tmod num_buckets

/-- The read `ht->items[index]`; an index outside the array is undefined behaviour. -/
def read_item (items : List ItemPtr) (index : Int) : Res ItemPtr :=
  if index < 0 then Res.undefined
  else
    match items[index.toNat]? with
    | some p => Res.ok p
    | none => Res.undefined

/-- The write `ht->items[index] = p`. -/
def write_item (items : List ItemPtr) (index : Int) (p : ItemPtr) : List ItemPtr :=
  items.set index.toNat p

/-- The function `ht_new_sized(base_size)`; `calloc` fills the array with `NULL`. -/
def ht_new_sized (fuel : Nat) (base_size : Int) : Res ht_hash_table :=
  match next_prime fuel base_size with
  | Res.ok size => Res.ok ⟨base_size, size, 0, List.replicate size.toNat ItemPtr.null⟩
  | Res.undefined => Res.undefined
  | Res.timeout => Res.timeout

/-- The function `ht_new()`. -/
def ht_new (fuel : Nat) : Res ht_hash_table :=
  ht_new_sized fuel HT_INITIAL_BASE_SIZE

/-- The `while (cur_item != NULL)` loop of `hash_insert`, entered with `index` already
computed.  The attempt counter `i` of the source is initialised to `1` and never
changed, so every re-probe asks for attempt `1`. -/
def hash_insert_loop (ht : ht_hash_table) (key value : List Int) :
    Nat → Int → Res ht_hash_table
  | 0, _ => Res.timeout
  | fuel + 1, index =>
    match read_item ht.items index with
    | Res.ok ItemPtr.null =>
      Res.ok { ht with items := write_item ht.items index (ItemPtr.item (ht_new_item key value)),
                       count := ht.count + 1 }
    | Res.ok ItemPtr.deleted =>
      hash_insert_loop ht key value fuel (ht_get_hash key ht.size 1)
    | Res.ok (ItemPtr.item cur_item) =>
      if cur_item.key = key then
        Res.ok { ht with items := write_item ht.items index (ItemPtr.item (ht_new_item key value)) }
      else hash_insert_loop ht key value fuel (ht_get_hash key ht.size 1)
    | Res.undefined => Res.undefined
    | Res.timeout => Res.timeout

/-- The `for (int i = 0; i < ht->size; i++)` loop of `ht_resize`, over the cells of the
old array in index order (the array has `size` cells); `ins` is the call
`hash_insert(new_ht, _, _)`. -/
def ht_resize_loop (ins : ht_hash_table → List Int → List Int → Res ht_hash_table) :
    List ItemPtr → ht_hash_table → Res ht_hash_table
  | [], new_ht => Res.ok new_ht
  | ItemPtr.item it :: rest, new_ht =>
    match ins new_ht it.key it.value with
    | Res.ok new_ht1 => ht_resize_loop ins rest new_ht1
    | Res.undefined => Res.undefined
    | Res.timeout => Res.timeout
  | _ :: rest, new_ht => ht_resize_loop ins rest new_ht

/-- The function `ht_del_item(i)`: `free(i->key); free(i->value); free(i);`.  On the
deleted marker the two strings are `NULL`, but `free(i)` is then applied to the static
object `HT_DELETED_ITEM`, which is undefined behaviour; on `NULL` the reads `i->key`
are. -/
def ht_del_item : ItemPtr → Res Unit
  | ItemPtr.item _ => Res.ok ()
  | ItemPtr.deleted => Res.undefined
  | ItemPtr.null => Res.undefined

/-- The function `ht_del_hash_table(ht)`, on the array of the table: every cell that is
not `NULL` goes to `ht_del_item`, the deleted marker included (the source has no test
for it). -/
def ht_del_hash_table : List ItemPtr → Res Unit
  | [] => Res.ok ()
  | ItemPtr.null :: rest => ht_del_hash_table rest
  | p :: rest =>
    match ht_del_item p with
    | Res.ok _ => ht_del_hash_table rest
    | Res.undefined => Res.undefined
    | Res.timeout => Res.timeout

/-- The body of `ht_resize(ht, base_size)` with the recursive call to `hash_insert`
passed as `ins`.  After the swap `ht` holds exactly the fields of `new_ht`, and `new_ht`
holds the old array, which the closing `ht_del_hash_table(new_ht)` tears down. -/
def ht_resize_with (ins : ht_hash_table → List Int → List Int → Res ht_hash_table)
    (fuel : Nat) (ht : ht_hash_table) (base_size : Int) : Res ht_hash_table :=
  if base_size < HT_INITIAL_BASE_SIZE then Res.ok ht
  else
    match ht_new_sized fuel base_size with
    | Res.ok new_ht =>
      match ht_resize_loop ins ht.items new_ht with
      | Res.ok ht1 =>
        match ht_del_hash_table ht.items with
        | Res.ok _ => Res.ok ht1
        | Res.undefined => Res.undefined
        | Res.timeout => Res.timeout
      | Res.undefined => Res.undefined
      | Res.timeout => Res.timeout
    | Res.undefined => Res.undefined
    | Res.timeout => Res.timeout

/-- The function `hash_insert(ht, key, value)`.  The source is mutually recursive with
`ht_resize`; `fuel` bounds the depth of that recursion as well as the loops. -/
def hash_insert : Nat → ht_hash_table → List Int → List Int → Res ht_hash_table
  | 0, _, _, _ => Res.timeout
  | fuel + 1, ht, key, value =>
    let load := (ht.count * 100).tdiv ht.size
    match (if load > 70 then
             ht_resize_with (fun t k v => hash_insert fuel t k v) fuel ht (ht.base_size * 2)
           else Res.ok ht) with
    | Res.ok ht1 =>
      hash_insert_loop ht1 key value (fuel + 1) (ht_get_hash key ht1.size 0)
    | Res.undefined => Res.undefined
    | Res.timeout => Res.timeout

/-- The function `ht_resize(ht, base_size)`. -/
def ht_resize (fuel : Nat) (ht : ht_hash_table) (base_size : Int) : Res ht_hash_table :=
  ht_resize_with (fun t k v => hash_insert fuel t k v) fuel ht base_size

/-- The function `ht_resize_up(ht)`. -/
def ht_resize_up (fuel : Nat) (ht : ht_hash_table) : Res ht_hash_table :=
  ht_resize fuel ht (ht.base_size * 2)

/-- The function `ht_resize_down(ht)`. -/
def ht_resize_down (fuel : Nat) (ht : ht_hash_table) : Res ht_hash_table :=
  ht_resize fuel ht (ht.base_size.tdiv 2)

/-- The `while (item != NULL)` loop of `hash_search`; `i` is the next attempt number.
On the deleted marker the guarded comparison is skipped and the unguarded
`strcmp(item->key, key)` that follows reads the marker's `NULL` key. -/
def hash_search_loop (ht : ht_hash_table) (key : List Int) :
    Nat → Int → Int → Res (Option (List Int))
  | 0, _, _ => Res.timeout
  | fuel + 1, index, i =>
    match read_item ht.items index with
    | Res.ok ItemPtr.null => Res.ok none
    | Res.ok ItemPtr.deleted => Res.undefined
    | Res.ok (ItemPtr.item item) =>
      if item.key = key then Res.ok (some item.value)
      else if item.key = key then Res.ok (some item.value)
      else hash_search_loop ht key fuel (ht_get_hash key ht.size i) (i + 1)
    | Res.undefined => Res.undefined
    | Res.timeout => Res.timeout

/-- The function `hash_search(ht, key)`; `none` is the `NULL` result. -/
def hash_search (fuel : Nat) (ht : ht_hash_table) (key : List Int) :
    Res (Option (List Int)) :=
  hash_search_loop ht key fuel (ht_get_hash key ht.size 0) 1

/-- The `while (item != NULL)` loop of `hash_delete` followed by `ht->count--`. -/
def hash_delete_loop (key : List Int) :
    Nat → ht_hash_table → Int → Int → Res ht_hash_table
  | 0, _, _, _ => Res.timeout
  | fuel + 1, ht, index, i =>
    match read_item ht.items index with
    | Res.ok ItemPtr.null => Res.ok { ht with count := ht.count - 1 }
    | Res.ok ItemPtr.deleted =>
      hash_delete_loop key fuel ht (ht_get_hash key ht.size i) (i + 1)
    | Res.ok (ItemPtr.item item) =>
      if item.key = key then
        hash_delete_loop key fuel
          { ht with items := write_item ht.items index ItemPtr.deleted }
          (ht_get_hash key ht.size i) (i + 1)
      else hash_delete_loop key fuel ht (ht_get_hash key ht.size i) (i + 1)
    | Res.undefined => Res.undefined
    | Res.timeout => Res.timeout

/-- The function `hash_delete(ht, key)`. -/
def hash_delete (fuel : Nat) (ht : ht_hash_table) (key : List Int) : Res ht_hash_table :=
  let load := (ht.count * 100).tdiv ht.size
  match (if load < 10 then ht_resize_down fuel ht else Res.ok ht) with
  | Res.ok ht1 => hash_delete_loop key fuel ht1 (ht_get_hash key ht1.size 0) 1
  | Res.undefined => Res.undefined
  | Res.timeout => Res.timeout

/-- Tables reachable from `ht_new()` by calls of `hash_insert` and `hash_delete` that
return normally. -/
inductive Reachable : ht_hash_table → Prop
  | new (fuel : Nat) (t : ht_hash_table) : ht_new fuel = Res.ok t → Reachable t
  | insert (fuel : Nat) (t t1 : ht_hash_table) (key value : List Int) :
      Reachable t → hash_insert fuel t key value = Res.ok t1 → Reachable t1
  | delete (fuel : Nat) (t t1 : ht_hash_table) (key : List Int) :
      Reachable t → hash_delete fuel t key = Res.ok t1 → Reachable t1

/-! ## Concrete tables used by the scenarios -/

/-- A C string literal of ASCII characters. -/
def cstr (s : String) : List Int := s.toList.map (fun c => Int.ofNat c.toNat)

/-- The table returned by `ht_new()`. -/
def empty_table : ht_hash_table := ⟨47, 47, 0, List.replicate 47 ItemPtr.null⟩

/-- The table of `main` after `hash_insert(ht, "a", "password11")`. -/
def table_a : ht_hash_table :=
  ⟨47, 47, 1, List.set empty_table.items 3 (ItemPtr.item ⟨cstr "a", cstr "password11"⟩)⟩

/-- The table `table_a` after `hash_delete(ht, "a")`. -/
def table_a_deleted : ht_hash_table :=
  ⟨47, 47, 0, List.set empty_table.items 3 ItemPtr.deleted⟩

/-- The table `table_a_deleted` after `hash_insert(ht, "a", "password11")`. -/
def table_a_again : ht_hash_table :=
  ⟨47, 47, 1, List.set table_a_deleted.items 7 (ItemPtr.item ⟨cstr "a", cstr "password11"⟩)⟩

/-- The table `table_a_again` after `hash_insert(ht, "a", "password22")`. -/
def table_a_overwritten : ht_hash_table :=
  ⟨47, 47, 1, List.set table_a_deleted.items 7 (ItemPtr.item ⟨cstr "a", cstr "password22"⟩)⟩

/-- The table returned by `ht_new()` after `hash_delete(ht, "a")`. -/
def table_minus_one : ht_hash_table := ⟨47, 47, -1, List.replicate 47 ItemPtr.null⟩

/-- The table `table_a` after `hash_insert(ht, "2", "password22")`; `"2"` and `"a"` share
the first probe index `3`. -/
def table_a_2 : ht_hash_table :=
  ⟨47, 47, 2, List.set table_a.items 7 (ItemPtr.item ⟨cstr "2", cstr "password22"⟩)⟩

/-- The table `table_a_2` after `hash_delete(ht, "a")`. -/
def table_2_only : ht_hash_table :=
  ⟨47, 47, 1, List.set table_a_2.items 3 ItemPtr.deleted⟩

/-- The table `table_a` after `hash_insert(ht, "6", "password22")`. -/
def table_a_6 : ht_hash_table :=
  ⟨47, 47, 2, List.set table_a.items 7 (ItemPtr.item ⟨cstr "6", cstr "password22"⟩)⟩

/-! ## Invariants of the table -/

/-- Cell `j` of the array holds a live item whose key is `k`. -/
def holds (items : List ItemPtr) (j : Nat) (k : List Int) : Prop :=
  ∃ v, items[j]? = some (ItemPtr.item ⟨k, v⟩)

/-- The pointer is a live item (neither `NULL` nor the deleted marker). -/
def is_item : ItemPtr → Bool
  | ItemPtr.item _ => true
  | _ => false

/-- Number of occupied cells: cells holding a live item. -/
def occupied (items : List ItemPtr) : Nat := items.countP is_item

/-- Every live item sits at the index of attempt `0` of its key, or at the index of
attempt `1` with the cell of attempt `0` not `NULL`. -/
def placed (t : ht_hash_table) : Prop :=
  ∀ (j : Nat) (k : List Int), holds t.items j k →
    (j : Int) = ht_get_hash k t.size 0 ∨
    ((j : Int) = ht_get_hash k t.size 1 ∧
      ∃ p, read_item t.items (ht_get_hash k t.size 0) = Res.ok p ∧ p ≠ ItemPtr.null)

/-- The invariant of the fields other than `count`. -/
structure table_inv (t : ht_hash_table) : Prop where
  len : (t.items.length : Int) = t.size
  base_ge : 47 ≤ t.base_size
  size_ge : t.base_size ≤ t.size
  size_prime : Nat.Prime t.size.toNat
  size_least : ∀ q : Nat, Nat.Prime q → t.base_size ≤ q → t.size ≤ q
  unique : ∀ (i j : Nat) (k : List Int), holds t.items i k → holds t.items j k → i = j
  placed : placed t

/-- The invariant of `count`: it never exceeds the number of occupied cells. -/
def count_ok (t : ht_hash_table) : Prop := t.count ≤ occupied t.items

/-! ## The growth scenario -/

/-- Successive calls `hash_insert(ht, k, v)` for the pairs of a list, as a caller such as
`main` issues them. -/
def insert_all (fuel : Nat) : List (List Int × List Int) → ht_hash_table → Res ht_hash_table
  | [], ht => Res.ok ht
  | (k, v) :: rest, ht =>
    match hash_insert fuel ht k v with
    | Res.ok ht1 => insert_all fuel rest ht1
    | Res.undefined => Res.undefined
    | Res.timeout => Res.timeout

/-- The 34 one-character keys with character codes `33` (`!`) to `66` (`B`), each with
the value `"v"`. -/
def keys_34 : List (List Int × List Int) :=
  (List.range 34).map (fun i => ([Int.ofNat (i + 33)], cstr "v"))

/-- The capacity-47 table holding the keys of `keys_34`: code `c` sits in cell `c % 47`. -/
def table_34 : ht_hash_table :=
  ⟨47, 47, 34, (List.range 47).map (fun i =>
    if i < 20 then ItemPtr.item ⟨[Int.ofNat (i + 47)], cstr "v"⟩
    else if 33 ≤ i then ItemPtr.item ⟨[Int.ofNat i], cstr "v"⟩
    else ItemPtr.null)⟩

/-- The table `table_34` after `ht_resize_up`: base size `94`, capacity `97`, code `c` in
cell `c`. -/
def table_34_grown : ht_hash_table :=
  ⟨94, 97, 34, (List.range 97).map (fun i =>
    if 33 ≤ i ∧ i ≤ 66 then ItemPtr.item ⟨[Int.ofNat i], cstr "v"⟩ else ItemPtr.null)⟩

/-! ## The degenerate probe step -/

/-- The table returned by `ht_new()` after `hash_insert(ht, "]", "v")`; `"]"` (code 93)
sits in cell `46`, the first probe index of `"."` (code 46) as well. -/
def table_bracket : ht_hash_table :=
  ⟨47, 47, 1, List.set empty_table.items 46 (ItemPtr.item ⟨cstr "]", cstr "v"⟩)⟩

/-! ## The hash value as the specification words it -/

/-- The string read as a numeral in base `prime`, in the words of the specification: the
sum over the positions `i` of `str[i] * prime ^ (n - 1 - i)`, with `n` the length. -/
def positional_value (str : List Int) (prime : Int) : Int :=
  ∑ i in Finset.range str.length, str.getD i 0 * prime ^ (str.length - 1 - i)

/-! ## Content of a table -/

/-- Some cell holds the live item with key `k` and value `v`. -/
def stored (items : List ItemPtr) (k v : List Int) : Prop :=
  ∃ j : Nat, items[j]? = some (ItemPtr.item ⟨k, v⟩)

/-- No cell is the deleted marker. -/
def no_tombstone (items : List ItemPtr) : Prop := ItemPtr.deleted ∉ items

/-- A table without deleted marker whose `count` is the number of occupied cells. -/
def compact (t : ht_hash_table) : Prop :=
  table_inv t ∧ no_tombstone t.items ∧ t.count = occupied t.items

/-- Tables reached from `ht_new()` by calls of `hash_insert` only. -/
inductive ReachableByInsert : ht_hash_table → Prop
  | new (fuel : Nat) (t : ht_hash_table) : ht_new fuel = Res.ok t → ReachableByInsert t
  | insert (fuel : Nat) (t t1 : ht_hash_table) (key value : List Int) :
      ReachableByInsert t → hash_insert fuel t key value = Res.ok t1 → ReachableByInsert t1

/-- The contract of an insertion procedure on compact tables: the result is compact, it
stores the new pair and the old pairs of the other keys, `base_size` has been doubled
some number of times, and without growth step `base_size` and `size` are kept and a new
key raises `count` by one. -/
def insert_contract (ins : ht_hash_table → List Int → List Int → Res ht_hash_table) :
    Prop :=
  ∀ (t : ht_hash_table) (k v : List Int) (r : ht_hash_table),
    compact t → ins t k v = Res.ok r →
    compact r ∧
    (∀ k1 v1, stored r.items k1 v1 ↔ (k1 = k ∧ v1 = v) ∨ (k1 ≠ k ∧ stored t.items k1 v1)) ∧
    (∃ n : Nat, r.base_size = t.base_size * 2 ^ n) ∧
    (¬ (t.count * 100).tdiv t.size > 70 →
      r.base_size = t.base_size ∧ r.size = t.size ∧
      ((∀ v1, ¬ stored t.items k v1) → r.count = t.count + 1))

/-- The table `table_34` after `hash_insert(ht, "C", "v")`, which grows it first: base
size `94`, capacity `97`, the 35 codes `33` to `67` each in the cell of its code. -/
def table_35 : ht_hash_table :=
  ⟨94, 97, 35, (List.range 97).map (fun i =>
    if 33 ≤ i ∧ i ≤ 67 then ItemPtr.item ⟨[Int.ofNat i], cstr "v"⟩ else ItemPtr.null)⟩

/-! ## Tables with a deleted marker under load -/

/-- The table returned by `ht_new()` after `hash_insert(ht, "O", "v")`; `"O"` (code 79)
sits in cell `32`. -/
def table_o : ht_hash_table :=
  ⟨47, 47, 1, List.set empty_table.items 32 (ItemPtr.item ⟨cstr "O", cstr "v"⟩)⟩

/-- The table `table_o` after `hash_delete(ht, "O")`. -/
def table_o_deleted : ht_hash_table :=
  ⟨47, 47, 0, List.set empty_table.items 32 ItemPtr.deleted⟩

/-- The table `table_o_deleted` after the 34 inserts of `keys_34`: the cells of
`table_34` and the deleted marker in cell `32`. -/
def table_34_marked : ht_hash_table :=
  ⟨47, 47, 34, (List.range 47).map (fun i =>
    if i < 20 then ItemPtr.item ⟨[Int.ofNat (i + 47)], cstr "v"⟩
    else if i = 32 then ItemPtr.deleted
    else if 33 ≤ i then ItemPtr.item ⟨[Int.ofNat i], cstr "v"⟩
    else ItemPtr.null)⟩

/-- The fresh table of `ht_new_sized(94)`. -/
def empty_table_94 : ht_hash_table := ⟨94, 97, 0, List.replicate 97 ItemPtr.null⟩

/-! ## The steps of a returning `ht_resize` -/

theorem ht_resize_with_ok
    {ins : ht_hash_table → List Int → List Int → Res ht_hash_table}
    {fuel : Nat} {ht r : ht_hash_table} {base_size : Int}
    (hb : ¬ base_size < HT_INITIAL_BASE_SIZE)
    (h : ht_resize_with ins fuel ht base_size = Res.ok r) :
    ∃ new_ht, ht_new_sized fuel base_size = Res.ok new_ht ∧
      ht_resize_loop ins ht.items new_ht = Res.ok r ∧
      ht_del_hash_table ht.items = Res.ok () := by
  unfold ht_resize_with at h
  simp only [hb, if_false] at h
  cases hn : ht_new_sized fuel base_size with
  | undefined => rw [hn] at h; cases h
  | timeout => rw [hn] at h; cases h
  | ok new_ht =>
    rw [hn] at h
    simp only at h
    cases hl : ht_resize_loop ins ht.items new_ht with
    | undefined => rw [hl] at h; cases h
    | timeout => rw [hl] at h; cases h
    | ok ht1 =>
      rw [hl] at h
      simp only at h
      cases hd : ht_del_hash_table ht.items with
      | undefined => rw [hd] at h; cases h
      | timeout => rw [hd] at h; cases h
      | ok u =>
        rw [hd] at h
        cases h
        exact ⟨new_ht, rfl, hl, rfl⟩

theorem ht_resize_with_of_steps
    {ins : ht_hash_table → List Int → List Int → Res ht_hash_table}
    {fuel : Nat} {ht new_ht ht1 : ht_hash_table} {base_size : Int}
    (hb : ¬ base_size < HT_INITIAL_BASE_SIZE)
    (hn : ht_new_sized fuel base_size = Res.ok new_ht)
    (hl : ht_resize_loop ins ht.items new_ht = Res.ok ht1)
    (hd : ht_del_hash_table ht.items = Res.ok ()) :
    ht_resize_with ins fuel ht base_size = Res.ok ht1 := by
  unfold ht_resize_with
  simp only [hb, if_false, hn, hl, hd]

theorem ht_resize_with_teardown_undefined
    {ins : ht_hash_table → List Int → List Int → Res ht_hash_table}
    {fuel : Nat} {ht new_ht ht1 : ht_hash_table} {base_size : Int}
    (hb : ¬ base_size < HT_INITIAL_BASE_SIZE)
    (hn : ht_new_sized fuel base_size = Res.ok new_ht)
    (hl : ht_resize_loop ins ht.items new_ht = Res.ok ht1)
    (hd : ht_del_hash_table ht.items = Res.undefined) :
    ht_resize_with ins fuel ht base_size = Res.undefined := by
  unfold ht_resize_with
  simp only [hb, if_false, hn, hl, hd]


/-! ## Prime sizing -/

theorem is_prime_loop_true_iff (x r : Int) :
    ∀ (n : Nat) (i : Int), r < i + 2 * n →
      (is_prime_loop x r n i = true ↔ ∀ k : Nat, i + 2 * k ≤ r → ¬ (i + 2 * k) ∣ x) := by
  intro n
  induction n with
  | zero =>
    intro i hr
    simp only [is_prime_loop, true_iff]
    intro k hk
    omega
  | succ n ih =>
    intro i hr
    unfold is_prime_loop
    by_cases hi : i ≤ r
    · by_cases hd : x.tmod i = 0
      · simp only [hi, hd, if_true]
        constructor
        · intro h; cases h
        · intro h
          exact absurd (Int.dvd_of_tmod_eq_zero hd) (by simpa using h 0 (by simpa using hi))
      · simp only [hi, hd, if_true, if_false]
        rw [ih (i + 2) (by push_cast at hr ⊢; omega)]
        constructor
        · intro h k hk
          cases k with
          | zero =>
            intro hdv
            exact hd (Int.tmod_eq_zero_of_dvd (by simpa using hdv))
          | succ k =>
            have := h k (by push_cast at hk ⊢; omega)
            have e : i + 2 * ((k + 1 : Nat) : Int) = i + 2 + 2 * (k : Int) := by
              push_cast; ring
            rw [e]; exact this
        · intro h k hk
          have := h (k + 1) (by push_cast; omega)
          have e : i + 2 * ((k + 1 : Nat) : Int) = i + 2 + 2 * (k : Int) := by
            push_cast; ring
          rw [e] at this; exact this
    · simp only [hi, if_false, true_iff]
      intro k hk
      omega

theorem is_prime_iff (x : Int) (hx : 2 ≤ x) : is_prime x = true ↔ Nat.Prime x.toNat := by
  obtain ⟨p, rfl⟩ := Int.eq_ofNat_of_zero_le (by omega : 0 ≤ x)
  have hp : 2 ≤ p := by exact_mod_cast hx
  simp only [Int.toNat_ofNat]
  unfold is_prime
  have h2 : ¬ ((p : Int) < 2) := by omega
  simp only [h2, if_false]
  by_cases h4 : (p : Int) < 4
  · simp only [h4, if_true]
    have : p = 2 ∨ p = 3 := by omega
    rcases this with rfl | rfl
    · simp [int_to_bool, Nat.prime_two]
    · simp [int_to_bool, Nat.prime_three]
  · simp only [h4, if_false]
    by_cases he : (p : Int).tmod 2 = 0
    · simp only [he, if_true, int_to_bool]
      have hd : (2 : Int) ∣ p := Int.dvd_of_tmod_eq_zero he
      have hd2 : 2 ∣ p := by exact_mod_cast hd
      constructor
      · intro h; simp at h
      · intro hpr
        have := (Nat.prime_dvd_prime_iff_eq Nat.prime_two hpr).1 hd2
        omega
    · simp only [he, if_false]
      have hnd : ¬ 2 ∣ p := by
        intro hd
        apply he
        exact Int.tmod_eq_zero_of_dvd (by exact_mod_cast hd)
      simp only [Int.ofNat_eq_coe]
      rw [is_prime_loop_true_iff _ _ _ _ (by omega), Nat.prime_def_le_sqrt]
      constructor
      · intro h
        refine ⟨hp, fun m hm2 hms hdv => ?_⟩
        rcases Nat.even_or_odd m with hev | hodd
        · exact hnd (dvd_trans hev.two_dvd hdv)
        · obtain ⟨c, hc⟩ := hodd
          have hc1 : 1 ≤ c := by omega
          have := h (c - 1) (by
            have : ((3 : Int) + 2 * ((c - 1 : Nat) : Int)) = (m : Int) := by
              rw [hc]; push_cast [Nat.cast_sub hc1]; ring
            rw [this]; exact_mod_cast hms)
          apply this
          have e : ((3 : Int) + 2 * ((c - 1 : Nat) : Int)) = (m : Int) := by
            rw [hc]; push_cast [Nat.cast_sub hc1]; ring
          rw [e]; exact_mod_cast hdv
      · rintro ⟨_, h⟩ k hk hdv
        have e : ((3 : Int) + 2 * (k : Int)) = ((3 + 2 * k : Nat) : Int) := by push_cast; ring
        rw [e] at hk hdv
        exact h (3 + 2 * k) (by omega) (by exact_mod_cast hk) (by exact_mod_cast hdv)

theorem next_prime_spec :
    ∀ (fuel : Nat) (x p : Int), 2 ≤ x → next_prime fuel x = Res.ok p →
      x ≤ p ∧ Nat.Prime p.toNat ∧ ∀ q : Nat, Nat.Prime q → x ≤ q → p ≤ q := by
  intro fuel
  induction fuel with
  | zero => intro x p _ h; cases h
  | succ n ih =>
    intro x p hx h
    unfold next_prime at h
    by_cases hp : is_prime x = true
    · simp only [hp, bne_self_eq_false, Bool.false_eq_true, if_false] at h
      cases h
      exact ⟨le_refl _, (is_prime_iff x hx).1 hp, fun q _ hq => hq⟩
    · have hb : (is_prime x != true) = true := by
        cases hv : is_prime x
        · rfl
        · exact absurd hv hp
      simp only [hb, if_true] at h
      obtain ⟨h1, h2, h3⟩ := ih (x + 1) p (by omega) h
      refine ⟨by omega, h2, fun q hq hxq => h3 q hq ?_⟩
      have hne : (q : Int) ≠ x := by
        rintro rfl
        exact hp ((is_prime_iff _ hx).2 (by simpa using hq))
      omega

/-! ## Reachability of the concrete tables -/

theorem reachable_empty_table : Reachable empty_table :=
  Reachable.new 1 _ (by decide!)

theorem reachable_table_a : Reachable table_a :=
  Reachable.insert 1 _ _ (cstr "a") (cstr "password11") reachable_empty_table (by decide!)

theorem reachable_table_a_deleted : Reachable table_a_deleted :=
  Reachable.delete 2 _ _ (cstr "a") reachable_table_a (by decide!)

theorem reachable_table_a_again : Reachable table_a_again :=
  Reachable.insert 2 _ _ (cstr "a") (cstr "password11") reachable_table_a_deleted (by decide!)

theorem reachable_table_a_2 : Reachable table_a_2 :=
  Reachable.insert 2 _ _ (cstr "2") (cstr "password22") reachable_table_a (by decide!)

theorem reachable_table_a_6 : Reachable table_a_6 :=
  Reachable.insert 1 _ _ (cstr "6") (cstr "password22") reachable_table_a (by decide!)

/-! ## Scenarios on which the code departs from the contract -/

/-- C1 (round trip), evaluated on the code: after `insert a; delete a`, the call
`hash_insert(ht, "a", "password11")` returns, and the following `hash_search(ht, "a")`
meets the deleted marker at its first probe and reads its `NULL` key, whatever the fuel. -/
theorem roundtrip_search_reads_deleted_marker :
    Reachable table_a_deleted ∧
    hash_insert 2 table_a_deleted (cstr "a") (cstr "password11") = Res.ok table_a_again ∧
    ∀ fuel, hash_search (fuel + 1) table_a_again (cstr "a") = Res.undefined :=
  ⟨reachable_table_a_deleted, by decide!, fun _ => rfl⟩

/-- C2 (delete then search), evaluated on the code: `hash_delete(ht, "a")` on the table
holding `"a"` returns, and the following `hash_search(ht, "a")` reads the `NULL` key of
the deleted marker instead of returning `NULL`. -/
theorem delete_then_search_reads_deleted_marker :
    Reachable table_a ∧
    hash_delete 2 table_a (cstr "a") = Res.ok table_a_deleted ∧
    ∀ fuel, hash_search (fuel + 1) table_a_deleted (cstr "a") = Res.undefined :=
  ⟨reachable_table_a, by decide!, fun _ => rfl⟩

/-- C3 (idempotent delete), evaluated on the code: deleting the absent key `"a"` from the
fresh table returns with `count` lowered from `0` to `-1`. -/
theorem delete_absent_decrements_count :
    Reachable empty_table ∧
    (∀ (j : Nat) (v : List Int),
      empty_table.items[j]? ≠ some (ItemPtr.item ⟨cstr "a", v⟩)) ∧
    empty_table.count = 0 ∧
    ∀ fuel, hash_delete (fuel + 1) empty_table (cstr "a") = Res.ok table_minus_one ∧
      table_minus_one.count = -1 := by
  refine ⟨reachable_empty_table, ?_, rfl, fun _ => ⟨rfl, rfl⟩⟩
  intro j v h
  have hm : ItemPtr.item ⟨cstr "a", v⟩ ∈ List.replicate 47 ItemPtr.null :=
    List.getElem?_mem h
  have := List.eq_of_mem_replicate hm
  cases this

/-- C4 (overwrite), evaluated on the code: with a deleted marker in front of `"a"`, the
second insert replaces the value in place and keeps `count`, but the following
`hash_search(ht, "a")` reads the `NULL` key of the marker instead of returning the
latest value. -/
theorem overwrite_search_reads_deleted_marker :
    Reachable table_a_deleted ∧
    hash_insert 2 table_a_deleted (cstr "a") (cstr "password11") = Res.ok table_a_again ∧
    hash_insert 2 table_a_again (cstr "a") (cstr "password22") = Res.ok table_a_overwritten ∧
    table_a_overwritten.count = table_a_again.count ∧
    ∀ fuel, hash_search (fuel + 1) table_a_overwritten (cstr "a") = Res.undefined :=
  ⟨reachable_table_a_deleted, by decide!, by decide!, rfl, fun _ => rfl⟩

/-- C5 (deletion leaves other keys alone), evaluated on the code: `"2"` is found behind
`"a"`; after `hash_delete(ht, "a")` the search for `"2"` meets the deleted marker and
reads its `NULL` key. -/
theorem delete_sibling_breaks_search :
    Reachable table_a_2 ∧
    hash_search 2 table_a_2 (cstr "2") = Res.ok (some (cstr "password22")) ∧
    hash_delete 3 table_a_2 (cstr "a") = Res.ok table_2_only ∧
    ∀ fuel, hash_search (fuel + 1) table_2_only (cstr "2") = Res.undefined :=
  ⟨reachable_table_a_2, by decide!, by decide!, fun _ => rfl⟩

theorem hash_insert_loop_table_a_6 (fuel : Nat) :
    hash_insert_loop table_a_6 (cstr "2") (cstr "v") fuel 7 = Res.timeout := by
  induction fuel with
  | zero => rfl
  | succ n ih =>
    have h1 : ht_get_hash (cstr "2") table_a_6.size 1 = 7 := by decide!
    have h2 : read_item table_a_6.items 7
        = Res.ok (ItemPtr.item ⟨cstr "6", cstr "password22"⟩) := by decide!
    have h3 : ¬ (cstr "6" = cstr "2") := by decide
    simp only [hash_insert_loop, h1, h2, h3, if_false, ih]

/-- C6 (bounded probing), evaluated on the code: with `"a"` in cell `3` and `"6"` in
cell `7`, the probe of `hash_insert(ht, "2", _)` goes to `3`, then to `7`, and asks for
attempt `1` again for ever: no amount of fuel lets the call return. -/
theorem insert_probe_never_ends :
    Reachable table_a_6 ∧
    ∀ fuel, hash_insert fuel table_a_6 (cstr "2") (cstr "v") = Res.timeout := by
  refine ⟨reachable_table_a_6, fun fuel => ?_⟩
  cases fuel with
  | zero => rfl
  | succ n =>
    have h0 : ht_get_hash (cstr "2") table_a_6.size 0 = 3 := by decide!
    have h1 : ht_get_hash (cstr "2") table_a_6.size 1 = 7 := by decide!
    have hl : ¬ ((table_a_6.count * 100).tdiv table_a_6.size > 70) := by decide!
    have h2 : read_item table_a_6.items 3
        = Res.ok (ItemPtr.item ⟨cstr "a", cstr "password11"⟩) := by decide!
    have h3 : ¬ (cstr "a" = cstr "2") := by decide
    simp only [hash_insert, hl, if_false, h0, hash_insert_loop, h2, h3, h1,
      hash_insert_loop_table_a_6]


/-! ## Reads and writes of the array -/

theorem read_item_ok {items : List ItemPtr} {index : Int} {p : ItemPtr}
    (h : read_item items index = Res.ok p) :
    0 ≤ index ∧ items[index.toNat]? = some p := by
  unfold read_item at h
  by_cases hi : index < 0
  · simp [hi] at h
  · simp only [hi, if_false] at h
    refine ⟨by omega, ?_⟩
    cases hg : items[index.toNat]? with
    | none => rw [hg] at h; cases h
    | some q => rw [hg] at h; cases h; rfl

theorem read_item_of_get {items : List ItemPtr} {j : Nat} {p : ItemPtr}
    (h : items[j]? = some p) : read_item items (j : Int) = Res.ok p := by
  unfold read_item
  have : ¬ ((j : Int) < 0) := by omega
  simp [this, h]

theorem lt_length_of_get {items : List ItemPtr} {j : Nat} {p : ItemPtr}
    (h : items[j]? = some p) : j < items.length := by
  by_contra hc
  rw [List.getElem?_eq_none (by omega)] at h
  cases h

theorem holds_set {items : List ItemPtr} {j i : Nat} {q : ItemPtr} {k : List Int}
    (h : holds (items.set j q) i k) :
    (i = j ∧ ∃ v, q = ItemPtr.item ⟨k, v⟩) ∨ (i ≠ j ∧ holds items i k) := by
  obtain ⟨v, hv⟩ := h
  by_cases hij : i = j
  · subst hij
    left
    refine ⟨rfl, v, ?_⟩
    rw [List.getElem?_set] at hv
    simp only [if_true] at hv
    split at hv
    · cases hv; rfl
    · cases hv
  · right
    refine ⟨hij, v, ?_⟩
    rw [List.getElem?_set_ne (Ne.symm hij)] at hv
    exact hv

theorem read_set_nonnull {items : List ItemPtr} {j : Nat} {q p : ItemPtr} {x : Int}
    (hq : q ≠ ItemPtr.null) (h : read_item items x = Res.ok p) (hp : p ≠ ItemPtr.null) :
    ∃ p1, read_item (items.set j q) x = Res.ok p1 ∧ p1 ≠ ItemPtr.null := by
  obtain ⟨hx, hg⟩ := read_item_ok h
  have hlt := lt_length_of_get hg
  obtain ⟨n, rfl⟩ := Int.eq_ofNat_of_zero_le hx
  simp only [Int.toNat_ofNat] at hg hlt
  by_cases hjn : j = n
  · subst hjn
    refine ⟨q, read_item_of_get ?_, hq⟩
    rw [List.getElem?_set]
    simp [hlt]
  · refine ⟨p, read_item_of_get ?_, hp⟩
    rw [List.getElem?_set_ne hjn]
    exact hg

theorem occupied_set_item {items : List ItemPtr} {j : Nat} {p : ItemPtr} (it : ht_item)
    (h : items[j]? = some p) :
    occupied (items.set j (ItemPtr.item it)) + (if is_item p then 1 else 0)
      = occupied items + 1 := by
  have hlt := lt_length_of_get h
  have hp : items[j] = p := by
    rw [List.getElem?_eq_getElem hlt] at h
    exact Option.some.inj h
  unfold occupied
  rw [List.countP_set _ _ _ _ hlt, hp]
  have hpos : is_item p = true → 0 < List.countP is_item items := fun hi =>
    List.countP_pos_iff.2 ⟨p, List.getElem?_mem h, hi⟩
  cases p with
  | null => simp [is_item]
  | deleted => simp [is_item]
  | item i =>
    have := hpos rfl
    simp only [is_item, if_true]
    omega

theorem occupied_set_deleted {items : List ItemPtr} {j : Nat} {it : ht_item}
    (h : items[j]? = some (ItemPtr.item it)) :
    occupied (items.set j ItemPtr.deleted) + 1 = occupied items := by
  have hlt := lt_length_of_get h
  have hp : items[j] = ItemPtr.item it := by
    rw [List.getElem?_eq_getElem hlt] at h
    exact Option.some.inj h
  unfold occupied
  rw [List.countP_set _ _ _ _ hlt, hp]
  have hpos : 0 < List.countP is_item items :=
    List.countP_pos_iff.2 ⟨_, List.getElem?_mem h, rfl⟩
  simp [is_item]
  omega

theorem occupied_le_length (items : List ItemPtr) : occupied items ≤ items.length :=
  List.countP_le_length _

/-! ## Preservation of the invariant by the two kinds of write -/

theorem table_inv_write_item {t t1 : ht_hash_table} {j : Nat} {key value : List Int}
    (hinv : table_inv t) (hb : t1.base_size = t.base_size) (hs : t1.size = t.size)
    (hi : t1.items = t.items.set j (ItemPtr.item ⟨key, value⟩))
    (hother : ∀ i, i ≠ j → ¬ holds t.items i key)
    (hpl : (j : Int) = ht_get_hash key t.size 0 ∨
      ((j : Int) = ht_get_hash key t.size 1 ∧
        ∃ p, read_item t.items (ht_get_hash key t.size 0) = Res.ok p ∧ p ≠ ItemPtr.null)) :
    table_inv t1 := by
  have hq : ItemPtr.item ⟨key, value⟩ ≠ ItemPtr.null := by intro h; cases h
  refine ⟨?_, ?_, ?_, ?_, ?_, ?_, ?_⟩
  · rw [hi, hs, List.length_set]; exact hinv.len
  · rw [hb]; exact hinv.base_ge
  · rw [hb, hs]; exact hinv.size_ge
  · rw [hs]; exact hinv.size_prime
  · rw [hb, hs]; exact hinv.size_least
  · intro a b k ha hb1
    rw [hi] at ha hb1
    rcases holds_set ha with ⟨rfl, v, hv⟩ | ⟨hne, hold⟩
    · rcases holds_set hb1 with ⟨rfl, _, _⟩ | ⟨hne1, hold1⟩
      · rfl
      · cases hv
        exact absurd hold1 (hother b hne1)
    · rcases holds_set hb1 with ⟨rfl, v, hv⟩ | ⟨_, hold1⟩
      · cases hv
        exact absurd hold (hother a hne)
      · exact hinv.unique a b k hold hold1
  · intro a k ha
    rw [hi] at ha
    rw [hs, hi]
    rcases holds_set ha with ⟨rfl, v, hv⟩ | ⟨_, hold⟩
    · cases hv
      rcases hpl with h0 | ⟨h1, p, hp, hpn⟩
      · exact Or.inl h0
      · exact Or.inr ⟨h1, read_set_nonnull hq hp hpn⟩
    · rcases hinv.placed a k hold with h0 | ⟨h1, p, hp, hpn⟩
      · exact Or.inl h0
      · exact Or.inr ⟨h1, read_set_nonnull hq hp hpn⟩

theorem table_inv_write_deleted {t t1 : ht_hash_table} {j : Nat}
    (hinv : table_inv t) (hb : t1.base_size = t.base_size) (hs : t1.size = t.size)
    (hi : t1.items = t.items.set j ItemPtr.deleted) :
    table_inv t1 := by
  have hq : ItemPtr.deleted ≠ ItemPtr.null := by intro h; cases h
  refine ⟨?_, ?_, ?_, ?_, ?_, ?_, ?_⟩
  · rw [hi, hs, List.length_set]; exact hinv.len
  · rw [hb]; exact hinv.base_ge
  · rw [hb, hs]; exact hinv.size_ge
  · rw [hs]; exact hinv.size_prime
  · rw [hb, hs]; exact hinv.size_least
  · intro a b k ha hb1
    rw [hi] at ha hb1
    rcases holds_set ha with ⟨_, v, hv⟩ | ⟨_, hold⟩
    · cases hv
    · rcases holds_set hb1 with ⟨_, v, hv⟩ | ⟨_, hold1⟩
      · cases hv
      · exact hinv.unique a b k hold hold1
  · intro a k ha
    rw [hi] at ha
    rw [hs, hi]
    rcases holds_set ha with ⟨_, v, hv⟩ | ⟨_, hold⟩
    · cases hv
    · rcases hinv.placed a k hold with h0 | ⟨h1, p, hp, hpn⟩
      · exact Or.inl h0
      · exact Or.inr ⟨h1, read_set_nonnull hq hp hpn⟩

/-! ## `hash_insert` keeps the invariant -/

/-- The probe at attempt `1`, entered when the cell of attempt `0` is neither `NULL` nor
an item with the key. -/
theorem hash_insert_loop_inv_attempt1 {ht : ht_hash_table} {key value : List Int}
    (hinv : table_inv ht) (hc : count_ok ht)
    (h0 : ∃ p, read_item ht.items (ht_get_hash key ht.size 0) = Res.ok p ∧
      p ≠ ItemPtr.null ∧ ∀ v, p ≠ ItemPtr.item ⟨key, v⟩) :
    ∀ (fuel : Nat) (r : ht_hash_table),
      hash_insert_loop ht key value fuel (ht_get_hash key ht.size 1) = Res.ok r →
      table_inv r ∧ count_ok r := by
  obtain ⟨p0, hp0, hp0n, hp0k⟩ := h0
  obtain ⟨h0nn, hg0⟩ := read_item_ok hp0
  intro fuel
  induction fuel with
  | zero => intro r h; cases h
  | succ n ih =>
    intro r h
    unfold hash_insert_loop at h
    cases hrd : read_item ht.items (ht_get_hash key ht.size 1) with
    | undefined => rw [hrd] at h; cases h
    | timeout => rw [hrd] at h; cases h
    | ok p =>
      rw [hrd] at h
      obtain ⟨h1nn, hg1⟩ := read_item_ok hrd
      have hj : ((ht_get_hash key ht.size 1).toNat : Int) = ht_get_hash key ht.size 1 :=
        Int.toNat_of_nonneg h1nn
      have hj0 : ((ht_get_hash key ht.size 0).toNat : Int) = ht_get_hash key ht.size 0 :=
        Int.toNat_of_nonneg h0nn
      cases p with
      | null =>
        simp only at h
        cases h
        have hother : ∀ i, i ≠ (ht_get_hash key ht.size 1).toNat → ¬ holds ht.items i key := by
          intro i hne hold
          rcases hinv.placed i key hold with e0 | ⟨e1, _⟩
          · obtain ⟨v, hv⟩ := hold
            have : i = (ht_get_hash key ht.size 0).toNat := by omega
            rw [this, hg0] at hv
            exact hp0k v (Option.some.inj hv)
          · exact hne (by omega)
        refine ⟨table_inv_write_item hinv rfl rfl rfl hother
          (Or.inr ⟨hj, p0, hp0, hp0n⟩), ?_⟩
        have := occupied_set_item (ht_new_item key value) hg1
        simp [is_item] at this
        unfold count_ok at hc ⊢
        simp only [write_item, ht_new_item] at this ⊢
        omega
      | deleted =>
        simp only at h
        exact ih r h
      | item cur =>
        simp only at h
        by_cases hk : cur.key = key
        · simp only [hk, if_true] at h
          cases h
          have hold1 : holds ht.items (ht_get_hash key ht.size 1).toNat key :=
            ⟨cur.value, by rw [hg1, ← hk]⟩
          have hother : ∀ i, i ≠ (ht_get_hash key ht.size 1).toNat →
              ¬ holds ht.items i key := fun i hne hold =>
            hne (hinv.unique _ _ _ hold hold1)
          refine ⟨table_inv_write_item hinv rfl rfl rfl hother
            (Or.inr ⟨hj, p0, hp0, hp0n⟩), ?_⟩
          have := occupied_set_item (ht_new_item key value) hg1
          simp only [is_item, if_true] at this
          unfold count_ok at hc ⊢
          simp only [write_item, ht_new_item] at this ⊢
          omega
        · simp only [hk, if_false] at h
          exact ih r h

/-- The probe of `hash_insert` from attempt `0`. -/
theorem hash_insert_loop_inv {ht : ht_hash_table} {key value : List Int}
    (hinv : table_inv ht) (hc : count_ok ht) (fuel : Nat) (r : ht_hash_table)
    (h : hash_insert_loop ht key value fuel (ht_get_hash key ht.size 0) = Res.ok r) :
    table_inv r ∧ count_ok r := by
  cases fuel with
  | zero => cases h
  | succ n =>
    unfold hash_insert_loop at h
    cases hrd : read_item ht.items (ht_get_hash key ht.size 0) with
    | undefined => rw [hrd] at h; cases h
    | timeout => rw [hrd] at h; cases h
    | ok p =>
      rw [hrd] at h
      obtain ⟨h0nn, hg0⟩ := read_item_ok hrd
      have hj0 : ((ht_get_hash key ht.size 0).toNat : Int) = ht_get_hash key ht.size 0 :=
        Int.toNat_of_nonneg h0nn
      cases p with
      | null =>
        simp only at h
        cases h
        have hother : ∀ i, i ≠ (ht_get_hash key ht.size 0).toNat → ¬ holds ht.items i key := by
          intro i hne hold
          rcases hinv.placed i key hold with e0 | ⟨_, q, hq, hqn⟩
          · exact hne (by omega)
          · rw [hrd] at hq
            cases hq
            exact hqn rfl
        refine ⟨table_inv_write_item hinv rfl rfl rfl hother (Or.inl hj0), ?_⟩
        have := occupied_set_item (ht_new_item key value) hg0
        simp [is_item] at this
        unfold count_ok at hc ⊢
        simp only [write_item, ht_new_item] at this ⊢
        omega
      | deleted =>
        simp only at h
        exact hash_insert_loop_inv_attempt1 hinv hc
          ⟨_, hrd, (by intro e; cases e), (by intro v e; cases e)⟩ n r h
      | item cur =>
        simp only at h
        by_cases hk : cur.key = key
        · simp only [hk, if_true] at h
          cases h
          have hold0 : holds ht.items (ht_get_hash key ht.size 0).toNat key :=
            ⟨cur.value, by rw [hg0, ← hk]⟩
          have hother : ∀ i, i ≠ (ht_get_hash key ht.size 0).toNat →
              ¬ holds ht.items i key := fun i hne hold =>
            hne (hinv.unique _ _ _ hold hold0)
          refine ⟨table_inv_write_item hinv rfl rfl rfl hother (Or.inl hj0), ?_⟩
          have := occupied_set_item (ht_new_item key value) hg0
          simp only [is_item, if_true] at this
          unfold count_ok at hc ⊢
          simp only [write_item, ht_new_item] at this ⊢
          omega
        · simp only [hk, if_false] at h
          exact hash_insert_loop_inv_attempt1 hinv hc
            ⟨_, hrd, (by intro e; cases e), (by
              intro v e
              cases e
              exact hk rfl)⟩ n r h

theorem ht_new_sized_inv {fuel : Nat} {base_size : Int} {t : ht_hash_table}
    (hb : 47 ≤ base_size) (h : ht_new_sized fuel base_size = Res.ok t) :
    table_inv t ∧ count_ok t := by
  unfold ht_new_sized at h
  cases hn : next_prime fuel base_size with
  | undefined => rw [hn] at h; cases h
  | timeout => rw [hn] at h; cases h
  | ok size =>
    rw [hn] at h
    cases h
    obtain ⟨h1, h2, h3⟩ := next_prime_spec fuel base_size size (by omega) hn
    have hnone : ∀ (j : Nat) (k : List Int),
        ¬ holds (List.replicate size.toNat ItemPtr.null) j k := by
      intro j k ⟨v, hv⟩
      have := List.eq_of_mem_replicate (List.getElem?_mem hv)
      cases this
    refine ⟨⟨?_, hb, h1, h2, h3, ?_, ?_⟩, ?_⟩
    · simp only [List.length_replicate]
      exact Int.toNat_of_nonneg (by omega)
    · intro i j k hi
      exact absurd hi (hnone i k)
    · intro j k hj
      exact absurd hj (hnone j k)
    · unfold count_ok
      simp

theorem ht_resize_loop_inv
    {ins : ht_hash_table → List Int → List Int → Res ht_hash_table}
    (hins : ∀ t k v t1, table_inv t → count_ok t → ins t k v = Res.ok t1 →
      table_inv t1 ∧ count_ok t1) :
    ∀ (cells : List ItemPtr) (new_ht r : ht_hash_table),
      table_inv new_ht → count_ok new_ht →
      ht_resize_loop ins cells new_ht = Res.ok r → table_inv r ∧ count_ok r := by
  intro cells
  induction cells with
  | nil =>
    intro new_ht r hi hc h
    simp only [ht_resize_loop] at h
    cases h
    exact ⟨hi, hc⟩
  | cons c rest ih =>
    intro new_ht r hi hc h
    cases c with
    | null => exact ih new_ht r hi hc (by simpa only [ht_resize_loop] using h)
    | deleted => exact ih new_ht r hi hc (by simpa only [ht_resize_loop] using h)
    | item it =>
      simp only [ht_resize_loop] at h
      cases hr : ins new_ht it.key it.value with
      | undefined => rw [hr] at h; cases h
      | timeout => rw [hr] at h; cases h
      | ok n1 =>
        rw [hr] at h
        obtain ⟨hi1, hc1⟩ := hins _ _ _ _ hi hc hr
        exact ih n1 r hi1 hc1 h

theorem ht_resize_with_inv
    {ins : ht_hash_table → List Int → List Int → Res ht_hash_table}
    (hins : ∀ t k v t1, table_inv t → count_ok t → ins t k v = Res.ok t1 →
      table_inv t1 ∧ count_ok t1)
    {fuel : Nat} {ht r : ht_hash_table} {base_size : Int}
    (hi : table_inv ht) (hc : count_ok ht)
    (h : ht_resize_with ins fuel ht base_size = Res.ok r) :
    table_inv r ∧ count_ok r := by
  by_cases hb : base_size < HT_INITIAL_BASE_SIZE
  · unfold ht_resize_with at h
    simp only [hb, if_true] at h
    cases h
    exact ⟨hi, hc⟩
  · obtain ⟨new_ht, hn, hl, _⟩ := ht_resize_with_ok hb h
    have hb1 : 47 ≤ base_size := by
      simp only [HT_INITIAL_BASE_SIZE] at hb
      omega
    obtain ⟨hi1, hc1⟩ := ht_new_sized_inv hb1 hn
    exact ht_resize_loop_inv hins _ _ _ hi1 hc1 hl

theorem hash_insert_inv :
    ∀ (fuel : Nat) (ht : ht_hash_table) (key value : List Int) (r : ht_hash_table),
      table_inv ht → count_ok ht → hash_insert fuel ht key value = Res.ok r →
      table_inv r ∧ count_ok r := by
  intro fuel
  induction fuel with
  | zero => intro ht key value r _ _ h; cases h
  | succ n ih =>
    intro ht key value r hi hc h
    unfold hash_insert at h
    simp only at h
    by_cases hl : (ht.count * 100).tdiv ht.size > 70
    · simp only [hl, if_true] at h
      cases hr : ht_resize_with (fun t k v => hash_insert n t k v) n ht (ht.base_size * 2) with
      | undefined => rw [hr] at h; cases h
      | timeout => rw [hr] at h; cases h
      | ok ht1 =>
        rw [hr] at h
        obtain ⟨hi1, hc1⟩ := ht_resize_with_inv (fun t k v t1 => ih t k v t1) hi hc hr
        exact hash_insert_loop_inv hi1 hc1 _ _ h
    · simp only [hl, if_false] at h
      exact hash_insert_loop_inv hi hc _ _ h

theorem ht_resize_inv {fuel : Nat} {ht r : ht_hash_table} {base_size : Int}
    (hi : table_inv ht) (hc : count_ok ht) (h : ht_resize fuel ht base_size = Res.ok r) :
    table_inv r ∧ count_ok r :=
  ht_resize_with_inv (fun t k v t1 => hash_insert_inv fuel t k v t1) hi hc h

/-! ## `hash_delete` keeps the invariant -/

/-- When no cell holds the key, the probe of `hash_delete` writes nothing. -/
theorem hash_delete_loop_absent {key : List Int} :
    ∀ (fuel : Nat) (ht : ht_hash_table) (index i : Int) (r : ht_hash_table),
      (∀ j, ¬ holds ht.items j key) →
      hash_delete_loop key fuel ht index i = Res.ok r →
      r = { ht with count := ht.count - 1 } := by
  intro fuel
  induction fuel with
  | zero => intro ht index i r _ h; cases h
  | succ n ih =>
    intro ht index i r hno h
    unfold hash_delete_loop at h
    cases hrd : read_item ht.items index with
    | undefined => rw [hrd] at h; cases h
    | timeout => rw [hrd] at h; cases h
    | ok p =>
      rw [hrd] at h
      cases p with
      | null => simp only at h; cases h; rfl
      | deleted => simp only at h; exact ih _ _ _ _ hno h
      | item cur =>
        simp only at h
        by_cases hk : cur.key = key
        · exfalso
          exact hno index.toNat ⟨cur.value, by rw [(read_item_ok hrd).2, ← hk]⟩
        · simp only [hk, if_false] at h
          exact ih _ _ _ _ hno h

/-- The probe of `hash_delete` lowers `count` by one and turns at most one cell, which
held the key, into the deleted marker. -/
theorem hash_delete_loop_spec {key : List Int} :
    ∀ (fuel : Nat) (ht : ht_hash_table) (index i : Int) (r : ht_hash_table),
      table_inv ht → hash_delete_loop key fuel ht index i = Res.ok r →
      r.base_size = ht.base_size ∧ r.size = ht.size ∧ r.count = ht.count - 1 ∧
      (r.items = ht.items ∨
        ∃ j it, ht.items[j]? = some (ItemPtr.item it) ∧
          r.items = ht.items.set j ItemPtr.deleted) := by
  intro fuel
  induction fuel with
  | zero => intro ht index i r _ h; cases h
  | succ n ih =>
    intro ht index i r hinv h
    unfold hash_delete_loop at h
    cases hrd : read_item ht.items index with
    | undefined => rw [hrd] at h; cases h
    | timeout => rw [hrd] at h; cases h
    | ok p =>
      rw [hrd] at h
      cases p with
      | null => simp only at h; cases h; exact ⟨rfl, rfl, rfl, Or.inl rfl⟩
      | deleted => simp only at h; exact ih _ _ _ _ hinv h
      | item cur =>
        simp only at h
        by_cases hk : cur.key = key
        · simp only [hk, if_true] at h
          have hg := (read_item_ok hrd).2
          have hold : holds ht.items index.toNat key := ⟨cur.value, by rw [hg, ← hk]⟩
          have hno : ∀ j, ¬ holds (write_item ht.items index ItemPtr.deleted) j key := by
            intro j hj
            rcases holds_set hj with ⟨_, v, hv⟩ | ⟨hne, hold1⟩
            · cases hv
            · exact hne (hinv.unique _ _ _ hold1 hold)
          have := hash_delete_loop_absent n _ _ _ r hno h
          subst this
          exact ⟨rfl, rfl, rfl, Or.inr ⟨index.toNat, cur, hg, rfl⟩⟩
        · simp only [hk, if_false] at h
          exact ih _ _ _ _ hinv h

theorem hash_delete_inv {fuel : Nat} {ht r : ht_hash_table} {key : List Int}
    (hi : table_inv ht) (hc : count_ok ht) (h : hash_delete fuel ht key = Res.ok r) :
    table_inv r ∧ count_ok r := by
  unfold hash_delete at h
  simp only at h
  have key_step : ∀ ht1 : ht_hash_table, table_inv ht1 → count_ok ht1 →
      hash_delete_loop key fuel ht1 (ht_get_hash key ht1.size 0) 1 = Res.ok r →
      table_inv r ∧ count_ok r := by
    intro ht1 hi1 hc1 hl
    obtain ⟨hb, hs, hcnt, hit⟩ := hash_delete_loop_spec fuel ht1 _ _ r hi1 hl
    unfold count_ok at hc1 ⊢
    rcases hit with he | ⟨j, it, hj, he⟩
    · refine ⟨⟨?_, ?_, ?_, ?_, ?_, ?_, ?_⟩, ?_⟩
      · rw [he, hs]; exact hi1.len
      · rw [hb]; exact hi1.base_ge
      · rw [hb, hs]; exact hi1.size_ge
      · rw [hs]; exact hi1.size_prime
      · rw [hb, hs]; exact hi1.size_least
      · rw [he]; exact hi1.unique
      · intro a k ha
        rw [he] at ha
        rw [hs, he]
        exact hi1.placed a k ha
      · rw [he, hcnt]; omega
    · refine ⟨table_inv_write_deleted hi1 hb hs he, ?_⟩
      have := occupied_set_deleted hj
      rw [he, hcnt]
      omega
  by_cases hl : (ht.count * 100).tdiv ht.size < 10
  · simp only [hl, if_true] at h
    cases hr : ht_resize_down fuel ht with
    | undefined => rw [hr] at h; cases h
    | timeout => rw [hr] at h; cases h
    | ok ht1 =>
      rw [hr] at h
      obtain ⟨hi1, hc1⟩ := ht_resize_inv hi hc hr
      exact key_step ht1 hi1 hc1 h
  · simp only [hl, if_false] at h
    exact key_step ht hi hc h

theorem ht_new_inv {fuel : Nat} {t : ht_hash_table} (h : ht_new fuel = Res.ok t) :
    table_inv t ∧ count_ok t :=
  ht_new_sized_inv (by simp [HT_INITIAL_BASE_SIZE]) h

/-- Every reachable table satisfies the invariant. -/
theorem reachable_inv {t : ht_hash_table} (h : Reachable t) : table_inv t ∧ count_ok t := by
  induction h with
  | new fuel t h => exact ht_new_inv h
  | insert fuel t t1 key value _ h ih => exact hash_insert_inv fuel t key value t1 ih.1 ih.2 h
  | delete fuel t t1 key _ h ih => exact hash_delete_inv ih.1 ih.2 h

/-! ## More fuel never changes a normal result -/

theorem next_prime_mono :
    ∀ (fuel : Nat) (x p : Int), next_prime fuel x = Res.ok p →
      next_prime (fuel + 1) x = Res.ok p := by
  intro fuel
  induction fuel with
  | zero => intro x p h; cases h
  | succ n ih =>
    intro x p h
    rw [next_prime] at h ⊢
    by_cases hp : (is_prime x != true) = true
    · simp only [hp, if_true] at h ⊢
      exact ih _ _ h
    · simp only [hp, if_false] at h ⊢
      exact h

theorem ht_new_sized_mono {fuel : Nat} {base_size : Int} {t : ht_hash_table}
    (h : ht_new_sized fuel base_size = Res.ok t) :
    ht_new_sized (fuel + 1) base_size = Res.ok t := by
  unfold ht_new_sized at h ⊢
  cases hn : next_prime fuel base_size with
  | undefined => rw [hn] at h; cases h
  | timeout => rw [hn] at h; cases h
  | ok size =>
    rw [hn] at h
    rw [next_prime_mono _ _ _ hn]
    exact h

theorem hash_insert_loop_mono {ht : ht_hash_table} {key value : List Int} :
    ∀ (fuel : Nat) (index : Int) (r : ht_hash_table),
      hash_insert_loop ht key value fuel index = Res.ok r →
      hash_insert_loop ht key value (fuel + 1) index = Res.ok r := by
  intro fuel
  induction fuel with
  | zero => intro index r h; cases h
  | succ n ih =>
    intro index r h
    rw [hash_insert_loop] at h ⊢
    cases hrd : read_item ht.items index with
    | undefined => rw [hrd] at h; cases h
    | timeout => rw [hrd] at h; cases h
    | ok p =>
      rw [hrd] at h
      cases p with
      | null => exact h
      | deleted => exact ih _ _ h
      | item cur =>
        simp only at h ⊢
        by_cases hk : cur.key = key
        · simp only [hk, if_true] at h ⊢
          exact h
        · simp only [hk, if_false] at h ⊢
          exact ih _ _ h

theorem ht_resize_loop_mono
    {ins ins1 : ht_hash_table → List Int → List Int → Res ht_hash_table}
    (hins : ∀ t k v r, ins t k v = Res.ok r → ins1 t k v = Res.ok r) :
    ∀ (cells : List ItemPtr) (new_ht r : ht_hash_table),
      ht_resize_loop ins cells new_ht = Res.ok r →
      ht_resize_loop ins1 cells new_ht = Res.ok r := by
  intro cells
  induction cells with
  | nil => intro new_ht r h; exact h
  | cons c rest ih =>
    intro new_ht r h
    cases c with
    | null => exact ih _ _ (by simpa only [ht_resize_loop] using h)
    | deleted => exact ih _ _ (by simpa only [ht_resize_loop] using h)
    | item it =>
      simp only [ht_resize_loop] at h ⊢
      cases hr : ins new_ht it.key it.value with
      | undefined => rw [hr] at h; cases h
      | timeout => rw [hr] at h; cases h
      | ok n1 =>
        rw [hr] at h
        rw [hins _ _ _ _ hr]
        exact ih _ _ h

theorem ht_resize_with_mono
    {ins ins1 : ht_hash_table → List Int → List Int → Res ht_hash_table}
    (hins : ∀ t k v r, ins t k v = Res.ok r → ins1 t k v = Res.ok r)
    {fuel : Nat} {ht r : ht_hash_table} {base_size : Int}
    (h : ht_resize_with ins fuel ht base_size = Res.ok r) :
    ht_resize_with ins1 (fuel + 1) ht base_size = Res.ok r := by
  by_cases hb : base_size < HT_INITIAL_BASE_SIZE
  · unfold ht_resize_with at h ⊢
    simp only [hb, if_true] at h ⊢
    exact h
  · obtain ⟨new_ht, hn, hl, hd⟩ := ht_resize_with_ok hb h
    rw [ht_resize_with_of_steps hb (ht_new_sized_mono hn)
      (ht_resize_loop_mono hins _ _ _ hl) hd]

theorem hash_insert_mono :
    ∀ (fuel : Nat) (ht : ht_hash_table) (key value : List Int) (r : ht_hash_table),
      hash_insert fuel ht key value = Res.ok r →
      hash_insert (fuel + 1) ht key value = Res.ok r := by
  intro fuel
  induction fuel with
  | zero => intro ht key value r h; cases h
  | succ n ih =>
    intro ht key value r h
    rw [hash_insert] at h ⊢
    by_cases hl : (ht.count * 100).tdiv ht.size > 70
    · simp only [hl, if_true] at h ⊢
      cases hr : ht_resize_with (fun t k v => hash_insert n t k v) n ht (ht.base_size * 2) with
      | undefined => rw [hr] at h; cases h
      | timeout => rw [hr] at h; cases h
      | ok ht1 =>
        rw [hr] at h
        rw [ht_resize_with_mono (fun t k v r => ih t k v r) hr]
        exact hash_insert_loop_mono _ _ _ h
    · simp only [hl, if_false] at h ⊢
      exact hash_insert_loop_mono _ _ _ h

theorem ht_resize_mono {fuel : Nat} {ht r : ht_hash_table} {base_size : Int}
    (h : ht_resize fuel ht base_size = Res.ok r) :
    ht_resize (fuel + 1) ht base_size = Res.ok r :=
  ht_resize_with_mono (fun t k v r => hash_insert_mono fuel t k v r) h

theorem ht_resize_mono_le {ht r : ht_hash_table} {base_size : Int} {fuel : Nat}
    (h : ht_resize fuel ht base_size = Res.ok r) :
    ∀ more : Nat, ht_resize (fuel + more) ht base_size = Res.ok r := by
  intro more
  induction more with
  | zero => exact h
  | succ m ih => exact ht_resize_mono ih

/-! ## Reachability through a run of inserts -/

theorem reachable_insert_all (fuel : Nat) :
    ∀ (kvs : List (List Int × List Int)) (t r : ht_hash_table),
      Reachable t → insert_all fuel kvs t = Res.ok r → Reachable r := by
  intro kvs
  induction kvs with
  | nil => intro t r ht h; cases h; exact ht
  | cons kv rest ih =>
    intro t r ht h
    obtain ⟨k, v⟩ := kv
    simp only [insert_all] at h
    cases hr : hash_insert fuel t k v with
    | undefined => rw [hr] at h; cases h
    | timeout => rw [hr] at h; cases h
    | ok t1 =>
      rw [hr] at h
      exact ih t1 r (Reachable.insert fuel t t1 k v ht hr) h

theorem reachable_table_34 : Reachable table_34 :=
  reachable_insert_all 1 keys_34 empty_table table_34 reachable_empty_table (by decide!)

theorem hash_insert_loop_table_34_grown (fuel : Nat) :
    hash_insert_loop table_34_grown (cstr "aA") (cstr "v") fuel 34 = Res.timeout := by
  induction fuel with
  | zero => rfl
  | succ n ih =>
    have h1 : ht_get_hash (cstr "aA") table_34_grown.size 1 = 34 := by decide!
    have h2 : read_item table_34_grown.items 34
        = Res.ok (ItemPtr.item ⟨cstr "\"", cstr "v"⟩) := by decide!
    have h3 : ¬ (cstr "\"" = cstr "aA") := by decide
    simp only [hash_insert_loop, h1, h2, h3, if_false, ih]

theorem ht_resize_table_34 (fuel : Nat) :
    ht_resize fuel table_34 94 = Res.timeout ∨
    ht_resize fuel table_34 94 = Res.ok table_34_grown := by
  by_cases hf : fuel < 4
  · left
    have : fuel = 0 ∨ fuel = 1 ∨ fuel = 2 ∨ fuel = 3 := by omega
    rcases this with rfl | rfl | rfl | rfl <;> decide!
  · right
    have h4 : ht_resize 4 table_34 94 = Res.ok table_34_grown := by decide!
    have := ht_resize_mono_le h4 (fuel - 4)
    rwa [show 4 + (fuel - 4) = fuel by omega] at this

/-- C7 (load-triggered growth), evaluated on the code: the capacity-47 table holding the
34 keys `"!"` … `"B"` has load 72; the call `hash_insert(ht, "aA", "v")` grows it to
capacity 97, where attempt `0` of `"aA"` is cell `65` (held by `"A"`) and attempt `1` is
cell `34` (held by `"\""`), and then asks for attempt `1` for ever: no amount of fuel
lets the call return. -/
theorem growth_insert_never_returns :
    Reachable table_34 ∧
    (table_34.count * 100).tdiv table_34.size > 70 ∧
    ht_resize_up 4 table_34 = Res.ok table_34_grown ∧
    ∀ fuel, hash_insert fuel table_34 (cstr "aA") (cstr "v") = Res.timeout := by
  refine ⟨reachable_table_34, by decide!, by decide!, fun fuel => ?_⟩
  cases fuel with
  | zero => rfl
  | succ n =>
    have hl : (table_34.count * 100).tdiv table_34.size > 70 := by decide!
    have hb : table_34.base_size * 2 = 94 := by decide!
    rw [hash_insert]
    simp only [hl, if_true, hb]
    have hres := ht_resize_table_34 n
    unfold ht_resize at hres
    rcases hres with ht | hok
    · rw [ht]
    · rw [hok]
      have h0 : ht_get_hash (cstr "aA") table_34_grown.size 0 = 65 := by decide!
      have h1 : ht_get_hash (cstr "aA") table_34_grown.size 1 = 34 := by decide!
      have h2 : read_item table_34_grown.items 65
          = Res.ok (ItemPtr.item ⟨cstr "A", cstr "v"⟩) := by decide!
      have h3 : ¬ (cstr "A" = cstr "aA") := by decide
      simp only [h0, hash_insert_loop, h2, h3, if_false, h1,
        hash_insert_loop_table_34_grown]

/-! ## Invariants of the reachable tables -/

theorem reachable_table_minus_one : Reachable table_minus_one :=
  Reachable.delete 1 _ _ (cstr "a") reachable_empty_table (by decide!)

/-- C8: in every table reachable from `ht_new()` by `hash_insert` and `hash_delete`,
`base_size` and `size` are at least 47 and `size` is the smallest prime at or above
`base_size`: it is prime, not below `base_size`, and no prime from `base_size` on is
smaller. -/
theorem capacity_invariant (t : ht_hash_table) (h : Reachable t) :
    47 ≤ t.base_size ∧ 47 ≤ t.size ∧ t.base_size ≤ t.size ∧ Nat.Prime t.size.toNat ∧
    ∀ q : Nat, Nat.Prime q → t.base_size ≤ q → t.size ≤ q := by
  have hinv := (reachable_inv h).1
  have h1 := hinv.base_ge
  have h2 := hinv.size_ge
  exact ⟨h1, by omega, h2, hinv.size_prime, hinv.size_least⟩

theorem capacity_invariant_witness :
    Reachable table_a_deleted ∧
    (47 ≤ table_a_deleted.base_size ∧ 47 ≤ table_a_deleted.size ∧
      table_a_deleted.base_size ≤ table_a_deleted.size ∧
      Nat.Prime table_a_deleted.size.toNat ∧
      ∀ q : Nat, Nat.Prime q → table_a_deleted.base_size ≤ q → table_a_deleted.size ≤ q) :=
  ⟨reachable_table_a_deleted, capacity_invariant table_a_deleted reachable_table_a_deleted⟩

/-- C9: in every table reachable from `ht_new()` by `hash_insert` and `hash_delete`, two
cells that hold live items with the same key are the same cell. -/
theorem key_uniqueness (t : ht_hash_table) (h : Reachable t) (i j : Nat)
    (k v w : List Int)
    (hi : t.items[i]? = some (ItemPtr.item ⟨k, v⟩))
    (hj : t.items[j]? = some (ItemPtr.item ⟨k, w⟩)) : i = j :=
  (reachable_inv h).1.unique i j k ⟨v, hi⟩ ⟨w, hj⟩

theorem key_uniqueness_witness :
    Reachable table_a_2 ∧
    table_a_2.items[3]? = some (ItemPtr.item ⟨cstr "a", cstr "password11"⟩) ∧
    3 = 3 :=
  ⟨reachable_table_a_2, by decide,
    key_uniqueness table_a_2 reachable_table_a_2 3 3 (cstr "a") (cstr "password11")
      (cstr "password11") (by decide) (by decide)⟩

/-- C10: in every table reachable from `ht_new()` by `hash_insert` and `hash_delete`,
`count` is at most the number of occupied cells, which is at most `size`. -/
theorem count_bound (t : ht_hash_table) (h : Reachable t) :
    t.count ≤ (occupied t.items : Int) ∧ (occupied t.items : Int) ≤ t.size := by
  obtain ⟨hinv, hc⟩ := reachable_inv h
  refine ⟨hc, ?_⟩
  rw [← hinv.len]
  exact_mod_cast occupied_le_length t.items

theorem count_bound_witness :
    Reachable table_minus_one ∧
    (table_minus_one.count ≤ (occupied table_minus_one.items : Int) ∧
      (occupied table_minus_one.items : Int) ≤ table_minus_one.size) :=
  ⟨reachable_table_minus_one, count_bound table_minus_one reachable_table_minus_one⟩

/-! ## Prime sizing: the contract of `is_prime` and `next_prime` -/

/-- C18: for every integer `x ≥ 2`, `is_prime(x)` returns true exactly when `x` is a
prime number. -/
theorem is_prime_decides_primality (x : Int) (hx : 2 ≤ x) :
    is_prime x = true ↔ Nat.Prime x.toNat :=
  is_prime_iff x hx

theorem is_prime_decides_primality_witness :
    (2 : Int) ≤ 91 ∧ (is_prime 91 = true ↔ Nat.Prime (91 : Int).toNat) :=
  ⟨by decide, is_prime_decides_primality 91 (by decide)⟩

/-- With a prime within `d` of `x`, `d + 1` units of fuel let `next_prime` return. -/
theorem next_prime_returns :
    ∀ (d : Nat) (x : Int), 2 ≤ x → (∃ q : Nat, Nat.Prime q ∧ x ≤ q ∧ (q : Int) ≤ x + d) →
      ∃ p, next_prime (d + 1) x = Res.ok p := by
  intro d
  induction d with
  | zero =>
    intro x hx ⟨q, hq, h1, h2⟩
    have hxq : x = (q : Int) := by
      simp only [Nat.cast_zero, add_zero] at h2
      omega
    have hp : is_prime x = true := (is_prime_iff x hx).2 (by rw [hxq]; simpa using hq)
    exact ⟨x, by simp [next_prime, hp]⟩
  | succ n ih =>
    intro x hx ⟨q, hq, h1, h2⟩
    by_cases hp : is_prime x = true
    · exact ⟨x, by rw [next_prime]; simp [hp]⟩
    · have hne : (q : Int) ≠ x := by
        rintro rfl
        exact hp ((is_prime_iff _ hx).2 (by simpa using hq))
      obtain ⟨p, hpp⟩ := ih (x + 1) (by omega) ⟨q, hq, by omega, by push_cast at h2 ⊢; omega⟩
      refine ⟨p, ?_⟩
      rw [next_prime]
      have hb : (is_prime x != true) = true := by
        cases hv : is_prime x
        · rfl
        · exact absurd hv hp
      simp only [hb, if_true]
      exact hpp

/-- C17: for every integer `x ≥ 2`, `next_prime(x)` returns (enough fuel exists), and
what it returns, with whatever fuel, is the one prime `p ≥ x` below which no prime `q`
satisfies `x ≤ q`. -/
theorem next_prime_least (x : Int) (hx : 2 ≤ x) :
    ∃ (fuel : Nat) (p : Int), next_prime fuel x = Res.ok p ∧
      x ≤ p ∧ Nat.Prime p.toNat ∧ (∀ q : Nat, Nat.Prime q → x ≤ q → p ≤ q) ∧
      ∀ (fuel1 : Nat) (p1 : Int), next_prime fuel1 x = Res.ok p1 → p1 = p := by
  obtain ⟨q, hxq, hq⟩ := Nat.exists_infinite_primes x.toNat
  have hxq1 : x ≤ (q : Int) := by omega
  obtain ⟨p, hp⟩ := next_prime_returns (q - x.toNat) x hx
    ⟨q, hq, hxq1, by push_cast [Nat.cast_sub hxq]; omega⟩
  obtain ⟨h1, h2, h3⟩ := next_prime_spec _ x p hx hp
  refine ⟨_, p, hp, h1, h2, h3, ?_⟩
  intro fuel1 p1 hp1
  obtain ⟨g1, g2, g3⟩ := next_prime_spec _ x p1 hx hp1
  have hpn : 0 ≤ p := by omega
  have hp1n : 0 ≤ p1 := by omega
  have a := h3 p1.toNat g2 (by omega)
  have b := g3 p.toNat h2 (by omega)
  omega

theorem next_prime_least_witness :
    (2 : Int) ≤ 94 ∧
    ∃ (fuel : Nat) (p : Int), next_prime fuel 94 = Res.ok p ∧
      94 ≤ p ∧ Nat.Prime p.toNat ∧ (∀ q : Nat, Nat.Prime q → (94 : Int) ≤ q → p ≤ q) ∧
      ∀ (fuel1 : Nat) (p1 : Int), next_prime fuel1 94 = Res.ok p1 → p1 = p :=
  ⟨by decide, next_prime_least 94 (by decide)⟩

theorem is_prime_below_two (x : Int) (hx : x < 2) : is_prime x = true := by
  simp [is_prime, hx, int_to_bool]

/-- C19 (invalid input), evaluated on the code: `is_prime` returns `-1` through its
`bool` return type, which is `true`; so `1`, `0` and `-7` are reported as prime, and
`next_prime(0)` stops at once at `0`. -/
theorem is_prime_invalid_reported_prime :
    int_to_bool (-1) = true ∧ is_prime 1 = true ∧ is_prime 0 = true ∧
    is_prime (-7) = true ∧ ∀ fuel, next_prime (fuel + 1) 0 = Res.ok 0 := by
  refine ⟨by decide, is_prime_below_two 1 (by decide), is_prime_below_two 0 (by decide),
    is_prime_below_two (-7) (by decide), fun fuel => ?_⟩
  rw [next_prime]
  simp [is_prime_below_two 0 (by decide)]

/-! ## The probe step -/

theorem reachable_table_bracket : Reachable table_bracket :=
  Reachable.insert 1 _ _ (cstr "]") (cstr "v") reachable_empty_table (by decide!)

theorem hash_search_loop_table_bracket (fuel : Nat) :
    ∀ i : Int, 0 ≤ i →
      hash_search_loop table_bracket (cstr ".") fuel 46 i = Res.timeout := by
  induction fuel with
  | zero => intro i _; rfl
  | succ n ih =>
    intro i hi
    have hh : ht_get_hash (cstr ".") table_bracket.size i = 46 := by
      have ha : hash_function (cstr ".") 811 47 = 46 := by decide!
      have hb : hash_function (cstr ".") 433 47 = 46 := by decide!
      have hs : table_bracket.size = 47 := rfl
      simp only [ht_get_hash, hs, ha, hb]
      rw [Int.tmod_eq_emod (by omega) (by omega)]
      omega
    have h2 : read_item table_bracket.items 46
        = Res.ok (ItemPtr.item ⟨cstr "]", cstr "v"⟩) := by decide!
    have h3 : ¬ (cstr "]" = cstr ".") := by decide
    simp only [hash_search_loop, h2, h3, if_false, hh]
    exact ih (i + 1) (by omega)

/-- C14 (non-degenerate probe step), evaluated on the code: for the key `"."` and the
prime capacity 47, `hash_b` is 46, the step `hash_b + 1` is 47, which is zero modulo 47,
and attempts `0` and `1` both give index 46.  With `"]"` in cell 46, the probe of
`hash_search(ht, ".")` stays on that cell for ever. -/
theorem probe_step_degenerate :
    Nat.Prime 47 ∧
    hash_function (cstr ".") 433 47 + 1 = 47 ∧
    ht_get_hash (cstr ".") 47 0 = 46 ∧
    ht_get_hash (cstr ".") 47 1 = 46 ∧
    Reachable table_bracket ∧
    ∀ fuel, hash_search fuel table_bracket (cstr ".") = Res.timeout := by
  refine ⟨by norm_num, by decide!, by decide!, by decide!, reachable_table_bracket,
    fun fuel => ?_⟩
  have h0 : ht_get_hash (cstr ".") table_bracket.size 0 = 46 := by decide!
  simp only [hash_search, h0]
  exact hash_search_loop_table_bracket fuel 1 (by decide)

/-! ## The guard of `ht_resize` -/

/-- The probe of `hash_delete` never writes `base_size` or `size`. -/
theorem hash_delete_loop_frame {key : List Int} :
    ∀ (fuel : Nat) (ht : ht_hash_table) (index i : Int) (r : ht_hash_table),
      hash_delete_loop key fuel ht index i = Res.ok r →
      r.size = ht.size ∧ r.base_size = ht.base_size := by
  intro fuel
  induction fuel with
  | zero => intro ht index i r h; cases h
  | succ n ih =>
    intro ht index i r h
    unfold hash_delete_loop at h
    cases hrd : read_item ht.items index with
    | undefined => rw [hrd] at h; cases h
    | timeout => rw [hrd] at h; cases h
    | ok p =>
      rw [hrd] at h
      cases p with
      | null => simp only at h; cases h; exact ⟨rfl, rfl⟩
      | deleted => simp only at h; exact ih _ _ _ _ h
      | item cur =>
        simp only at h
        by_cases hk : cur.key = key
        · simp only [hk, if_true] at h
          have := ih _ _ _ _ h
          exact this
        · simp only [hk, if_false] at h
          exact ih _ _ _ _ h

theorem ht_resize_below_minimum (fuel : Nat) (ht : ht_hash_table) (base_size : Int)
    (h : base_size < 47) : ht_resize fuel ht base_size = Res.ok ht := by
  have hb : base_size < HT_INITIAL_BASE_SIZE := h
  simp only [ht_resize, ht_resize_with, hb, if_true]

/-- C12: for every table and every `base_size < 47`, `ht_resize(ht, base_size)` returns
with `base_size`, `size`, `count` and every cell unchanged; hence a `hash_delete` on a
table whose `base_size` is below 94 leaves `size` and `base_size` as they were. -/
theorem invalid_resize_is_noop (fuel : Nat) (ht : ht_hash_table) (base_size : Int)
    (h : base_size < 47) :
    ht_resize fuel ht base_size = Res.ok ht ∧
    ∀ (key : List Int) (r : ht_hash_table), ht.base_size < 94 →
      hash_delete fuel ht key = Res.ok r →
      r.size = ht.size ∧ r.base_size = ht.base_size := by
  refine ⟨ht_resize_below_minimum fuel ht base_size h, ?_⟩
  intro key r hb hd
  unfold hash_delete at hd
  simp only at hd
  have hhalf : ht.base_size.tdiv 2 < 47 := by
    rcases le_or_lt 0 ht.base_size with hn | hn
    · rw [Int.tdiv_eq_ediv hn (by omega)]
      omega
    · have : ht.base_size.tdiv 2 ≤ 0 := by
        have h1 : ht.base_size = -(-ht.base_size) := by ring
        rw [h1, Int.neg_tdiv, Int.tdiv_eq_ediv (by omega) (by omega)]
        omega
      omega
  have hdown : ht_resize_down fuel ht = Res.ok ht := by
    unfold ht_resize_down
    exact ht_resize_below_minimum fuel ht _ hhalf
  rw [hdown] at hd
  simp only [ite_self] at hd
  exact hash_delete_loop_frame _ _ _ _ _ hd

theorem invalid_resize_is_noop_witness :
    (23 : Int) < 47 ∧ ht_resize 2 table_a 23 = Res.ok table_a ∧
    table_a_deleted.size = table_a.size ∧ table_a_deleted.base_size = table_a.base_size :=
  ⟨by decide, (invalid_resize_is_noop 2 table_a 23 (by decide)).1,
    (invalid_resize_is_noop 2 table_a 23 (by decide)).2 (cstr "a") table_a_deleted
      (by decide) (by decide!)⟩

/-! ## The hash value -/

theorem positional_value_cons (c : Int) (rest : List Int) (prime : Int) :
    positional_value (c :: rest) prime
      = prime ^ rest.length * c + positional_value rest prime := by
  unfold positional_value
  rw [List.length_cons, Finset.sum_range_succ']
  simp only [List.getD_cons_succ, List.getD_cons_zero, Nat.add_sub_cancel, Nat.sub_zero]
  rw [add_comm, mul_comm]
  congr 1
  apply Finset.sum_congr rfl
  intro i _
  have : rest.length - (i + 1) = rest.length - 1 - i := by omega
  rw [this]

theorem positional_value_nonneg (prime : Int) (hp : 0 ≤ prime) :
    ∀ str : List Int, (∀ c ∈ str, 0 ≤ c) → 0 ≤ positional_value str prime := by
  intro str
  induction str with
  | nil => intro _; simp [positional_value]
  | cons c rest ih =>
    intro h
    rw [positional_value_cons]
    have h1 := ih (fun d hd => h d (List.mem_cons_of_mem _ hd))
    have h2 : 0 ≤ c := h c (List.mem_cons_self _ _)
    have h3 : 0 ≤ prime ^ rest.length := pow_nonneg hp _
    have := mul_nonneg h3 h2
    omega

theorem hash_function_loop_eq (prime num_buckets : Int) (hp : 0 ≤ prime)
    (hm : 0 < num_buckets) :
    ∀ (rest : List Int) (hash : Int), (∀ c ∈ rest, 0 ≤ c) → 0 ≤ hash → hash < num_buckets →
      hash_function_loop prime num_buckets rest hash
        = (hash + positional_value rest prime) % num_buckets := by
  intro rest
  induction rest with
  | nil =>
    intro hash _ h0 h1
    simp only [hash_function_loop, positional_value, List.length_nil, Finset.range_zero,
      Finset.sum_empty, add_zero]
    exact (Int.emod_eq_of_lt h0 h1).symm
  | cons c rest ih =>
    intro hash hc h0 h1
    have hc0 : 0 ≤ c := hc c (List.mem_cons_self _ _)
    have hpw : 0 ≤ prime ^ rest.length * c := mul_nonneg (pow_nonneg hp _) hc0
    rw [hash_function_loop, Int.tmod_eq_emod (by omega) (by omega),
      ih _ (fun d hd => hc d (List.mem_cons_of_mem _ hd))
        (Int.emod_nonneg _ (by omega)) (Int.emod_lt_of_pos _ hm),
      Int.emod_add_emod, positional_value_cons, add_assoc]

theorem hash_function_eq (str : List Int) (prime num_buckets : Int)
    (hs : ∀ c ∈ str, 0 ≤ c) (hp : 0 ≤ prime) (hm : 0 < num_buckets) :
    hash_function str prime num_buckets = positional_value str prime % num_buckets := by
  unfold hash_function
  rw [hash_function_loop_eq prime num_buckets hp hm str 0 hs (le_refl _) hm, zero_add]

/-- C16: for every string of bytes in `0..127`, every prime `p` and every
`num_buckets > 0`, with exact integer arithmetic, `hash_function(s, p, num_buckets)` is
the sum of `s[i] * p ^ (n - 1 - i)` reduced modulo `num_buckets`, so it lies in
`0 ≤ result < num_buckets`: reducing after every character gives the same result as
reducing the whole sum once. -/
theorem hash_function_value (str : List Int) (p : Nat) (num_buckets : Int)
    (hs : ∀ c ∈ str, 0 ≤ c ∧ c ≤ 127) (_hp : Nat.Prime p) (hm : 0 < num_buckets) :
    hash_function str p num_buckets = positional_value str p % num_buckets ∧
    0 ≤ hash_function str p num_buckets ∧
    hash_function str p num_buckets < num_buckets := by
  have h := hash_function_eq str p num_buckets (fun c hc => (hs c hc).1)
    (Int.ofNat_nonneg p) hm
  refine ⟨h, ?_, ?_⟩
  · rw [h]; exact Int.emod_nonneg _ (by omega)
  · rw [h]; exact Int.emod_lt_of_pos _ hm

theorem hash_function_value_witness :
    (∀ c ∈ cstr "password11", 0 ≤ c ∧ c ≤ 127) ∧ Nat.Prime 811 ∧ (0 : Int) < 47 ∧
    hash_function (cstr "password11") (811 : Nat) 47
      = positional_value (cstr "password11") (811 : Nat) % 47 ∧
    0 ≤ hash_function (cstr "password11") (811 : Nat) 47 ∧
    hash_function (cstr "password11") (811 : Nat) 47 < 47 :=
  ⟨by decide, by norm_num, by decide,
    hash_function_value (cstr "password11") 811 47 (by decide) (by norm_num) (by decide)⟩

/-! ## The probe sequence in exact arithmetic -/

theorem dvd_sub_of_tmod_eq {a b n : Int} (h : a.tmod n = b.tmod n) : n ∣ a - b := by
  have ha := Int.tdiv_add_tmod a n
  have hb := Int.tdiv_add_tmod b n
  refine ⟨a.tdiv n - b.tdiv n, ?_⟩
  rw [mul_sub]
  omega

theorem ht_get_hash_injective (C : Nat) (hC : Nat.Prime C) (key : List Int)
    (hstep : ¬ (C : Int) ∣ hash_function key 433 C + 1) (i j : Nat) (hi : i < C)
    (hj : j < C) (h : ht_get_hash key C i = ht_get_hash key C j) : i = j := by
  unfold ht_get_hash at h
  simp only at h
  have hd := dvd_sub_of_tmod_eq h
  have he : hash_function key 811 C + (i : Int) * (hash_function key 433 C + 1)
      - (hash_function key 811 C + (j : Int) * (hash_function key 433 C + 1))
      = ((i : Int) - j) * (hash_function key 433 C + 1) := by ring
  rw [he] at hd
  have hpr : Prime (C : Int) := Nat.prime_iff_prime_int.1 hC
  rcases hpr.dvd_or_dvd hd with h1 | h1
  · have hz : (i : Int) - j = 0 := by
      apply Int.eq_zero_of_abs_lt_dvd h1
      rw [abs_lt]
      constructor <;> omega
    omega
  · exact absurd h1 hstep

theorem ht_get_hash_range (C : Nat) (hC : 0 < C) (key : List Int)
    (hs : ∀ c ∈ key, 0 ≤ c) (i : Nat) :
    0 ≤ ht_get_hash key C i ∧ ht_get_hash key C i < C := by
  have hm : (0 : Int) < C := by exact_mod_cast hC
  have ha := hash_function_eq key 811 C hs (by decide) hm
  have hb := hash_function_eq key 433 C hs (by decide) hm
  have ha0 : 0 ≤ hash_function key 811 C := by
    rw [ha]; exact Int.emod_nonneg _ (by omega)
  have hb0 : 0 ≤ hash_function key 433 C := by
    rw [hb]; exact Int.emod_nonneg _ (by omega)
  have hn : 0 ≤ hash_function key 811 C + (i : Int) * (hash_function key 433 C + 1) := by
    have : 0 ≤ (i : Int) * (hash_function key 433 C + 1) :=
      mul_nonneg (Int.ofNat_nonneg i) (by omega)
    omega
  unfold ht_get_hash
  simp only
  rw [Int.tmod_eq_emod hn (by omega)]
  exact ⟨Int.emod_nonneg _ (by omega), Int.emod_lt_of_pos _ hm⟩

/-- C15 (probe completeness), evaluated on the code: for the one-byte key `0xE9`, which
a signed `char` reads as `-23`, and the prime capacity 47, `hash_function` returns `-23`
for both primes, the step `-22` is not divisible by 47, and the indices of attempts `0`
and `1` are `-23` and `-45`: they are not indices of `0 .. 46`, and `hash_search` on the
fresh table reads `items[-23]`, outside the array. -/
theorem probe_index_negative :
    Nat.Prime 47 ∧
    hash_function [-23] 433 47 = -23 ∧
    ¬ (47 : Int) ∣ hash_function [-23] 433 47 + 1 ∧
    ht_get_hash [-23] 47 0 = -23 ∧ ht_get_hash [-23] 47 1 = -45 ∧
    Reachable empty_table ∧
    ∀ fuel, hash_search (fuel + 1) empty_table [-23] = Res.undefined :=
  ⟨by norm_num, by decide!, by decide!, by decide!, by decide!, reachable_empty_table,
    fun _ => rfl⟩

/-! ## What a returning `hash_insert` has written -/

/-- A returning probe of `hash_insert` writes one cell: the one it was entered at, or
the one of attempt `1` when the entry cell is neither `NULL` nor an item with the key.
The cell written was `NULL` (and `count` grows by one) or held the key. -/
theorem hash_insert_loop_shape {ht : ht_hash_table} {key value : List Int} :
    ∀ (fuel : Nat) (index : Int) (r : ht_hash_table),
      hash_insert_loop ht key value fuel index = Res.ok r →
      ∃ (idx : Int) (p : ItemPtr), read_item ht.items idx = Res.ok p ∧
        (idx = index ∨ (idx = ht_get_hash key ht.size 1 ∧
          ∃ p0, read_item ht.items index = Res.ok p0 ∧ p0 ≠ ItemPtr.null ∧
            ∀ v, p0 ≠ ItemPtr.item ⟨key, v⟩)) ∧
        ((p = ItemPtr.null ∧
            r = ⟨ht.base_size, ht.size, ht.count + 1,
              write_item ht.items idx (ItemPtr.item ⟨key, value⟩)⟩) ∨
         (∃ cur, p = ItemPtr.item cur ∧ cur.key = key ∧
            r = ⟨ht.base_size, ht.size, ht.count,
              write_item ht.items idx (ItemPtr.item ⟨key, value⟩)⟩)) := by
  intro fuel
  induction fuel with
  | zero => intro index r h; cases h
  | succ n ih =>
    intro index r h
    unfold hash_insert_loop at h
    cases hrd : read_item ht.items index with
    | undefined => rw [hrd] at h; cases h
    | timeout => rw [hrd] at h; cases h
    | ok p =>
      rw [hrd] at h
      have next : ∀ p0, read_item ht.items index = Res.ok p0 → p0 ≠ ItemPtr.null →
          (∀ v, p0 ≠ ItemPtr.item ⟨key, v⟩) →
          hash_insert_loop ht key value n (ht_get_hash key ht.size 1) = Res.ok r →
          ∃ (idx : Int) (p : ItemPtr), read_item ht.items idx = Res.ok p ∧
            (idx = index ∨ (idx = ht_get_hash key ht.size 1 ∧
              ∃ p0, read_item ht.items index = Res.ok p0 ∧ p0 ≠ ItemPtr.null ∧
                ∀ v, p0 ≠ ItemPtr.item ⟨key, v⟩)) ∧
            ((p = ItemPtr.null ∧
                r = ⟨ht.base_size, ht.size, ht.count + 1,
                  write_item ht.items idx (ItemPtr.item ⟨key, value⟩)⟩) ∨
             (∃ cur, p = ItemPtr.item cur ∧ cur.key = key ∧
                r = ⟨ht.base_size, ht.size, ht.count,
                  write_item ht.items idx (ItemPtr.item ⟨key, value⟩)⟩)) := by
        intro p0 hp0 hn hk hrec
        obtain ⟨idx, q, hq, hidx, hres⟩ := ih _ r hrec
        have hidx1 : idx = ht_get_hash key ht.size 1 := by
          rcases hidx with e | ⟨e, _⟩ <;> exact e
        exact ⟨idx, q, hq, Or.inr ⟨hidx1, p0, hp0, hn, hk⟩, hres⟩
      cases p with
      | null =>
        simp only at h
        cases h
        exact ⟨index, ItemPtr.null, hrd, Or.inl rfl, Or.inl ⟨rfl, rfl⟩⟩
      | deleted =>
        simp only at h
        have res := next _ hrd (by intro e; cases e) (by intro v e; cases e) h
        rw [hrd] at res
        exact res
      | item cur =>
        simp only at h
        by_cases hk : cur.key = key
        · simp only [hk, if_true] at h
          cases h
          exact ⟨index, ItemPtr.item cur, hrd, Or.inl rfl, Or.inr ⟨cur, rfl, hk, rfl⟩⟩
        · simp only [hk, if_false] at h
          have res := next _ hrd (by intro e; cases e) (by
            intro v e
            cases e
            exact hk rfl) h
          rw [hrd] at res
          exact res

/-! ## Every item of a table after `hash_insert` is the new one or an old one -/

theorem hash_insert_loop_content {ht r : ht_hash_table} {key value : List Int}
    {fuel : Nat} {index : Int}
    (h : hash_insert_loop ht key value fuel index = Res.ok r) (k v : List Int)
    (hs : stored r.items k v) : (k = key ∧ v = value) ∨ stored ht.items k v := by
  obtain ⟨idx, p, _, _, hres⟩ := hash_insert_loop_shape fuel index r h
  have hitems : r.items = ht.items.set idx.toNat (ItemPtr.item ⟨key, value⟩) := by
    rcases hres with ⟨_, e⟩ | ⟨_, _, _, e⟩ <;> rw [e] <;> rfl
  obtain ⟨j, hj⟩ := hs
  rw [hitems] at hj
  rcases holds_set ⟨v, hj⟩ with ⟨rfl, w, hw⟩ | ⟨hne, _⟩
  · left
    cases hw
    rw [List.getElem?_set] at hj
    simp only [if_true] at hj
    split at hj
    · cases hj; exact ⟨rfl, rfl⟩
    · cases hj
  · right
    rw [List.getElem?_set_ne (Ne.symm hne)] at hj
    exact ⟨j, hj⟩

theorem ht_resize_loop_content
    {ins : ht_hash_table → List Int → List Int → Res ht_hash_table}
    (hins : ∀ t k v t1, ins t k v = Res.ok t1 → ∀ k1 v1, stored t1.items k1 v1 →
      (k1 = k ∧ v1 = v) ∨ stored t.items k1 v1) :
    ∀ (cells : List ItemPtr) (new_ht r : ht_hash_table),
      ht_resize_loop ins cells new_ht = Res.ok r → ∀ k v, stored r.items k v →
      stored new_ht.items k v ∨ stored cells k v := by
  intro cells
  induction cells with
  | nil =>
    intro new_ht r h k v hs
    simp only [ht_resize_loop] at h
    cases h
    exact Or.inl hs
  | cons c rest ih =>
    intro new_ht r h k v hs
    have lift : stored rest k v → stored (c :: rest) k v := fun ⟨j, hj⟩ =>
      ⟨j + 1, by simpa using hj⟩
    cases c with
    | null =>
      rcases ih new_ht r (by simpa only [ht_resize_loop] using h) k v hs with a | a
      · exact Or.inl a
      · exact Or.inr (lift a)
    | deleted =>
      rcases ih new_ht r (by simpa only [ht_resize_loop] using h) k v hs with a | a
      · exact Or.inl a
      · exact Or.inr (lift a)
    | item it =>
      simp only [ht_resize_loop] at h
      cases hr : ins new_ht it.key it.value with
      | undefined => rw [hr] at h; cases h
      | timeout => rw [hr] at h; cases h
      | ok n1 =>
        rw [hr] at h
        rcases ih n1 r h k v hs with a | a
        · rcases hins _ _ _ _ hr k v a with ⟨rfl, rfl⟩ | b
          · exact Or.inr ⟨0, by simp⟩
          · exact Or.inl b
        · exact Or.inr (lift a)

theorem stored_replicate_null (n : Nat) (k v : List Int) :
    ¬ stored (List.replicate n ItemPtr.null) k v := by
  intro ⟨j, hj⟩
  have := List.eq_of_mem_replicate (List.getElem?_mem hj)
  cases this

theorem ht_resize_with_content
    {ins : ht_hash_table → List Int → List Int → Res ht_hash_table}
    (hins : ∀ t k v t1, ins t k v = Res.ok t1 → ∀ k1 v1, stored t1.items k1 v1 →
      (k1 = k ∧ v1 = v) ∨ stored t.items k1 v1)
    {fuel : Nat} {ht r : ht_hash_table} {base_size : Int}
    (h : ht_resize_with ins fuel ht base_size = Res.ok r) (k v : List Int)
    (hs : stored r.items k v) : stored ht.items k v := by
  by_cases hb : base_size < HT_INITIAL_BASE_SIZE
  · unfold ht_resize_with at h
    simp only [hb, if_true] at h
    cases h
    exact hs
  · obtain ⟨new_ht, hn, hl, _⟩ := ht_resize_with_ok hb h
    rcases ht_resize_loop_content hins _ _ _ hl k v hs with a | a
    · exfalso
      unfold ht_new_sized at hn
      cases hp : next_prime fuel base_size with
      | undefined => rw [hp] at hn; cases hn
      | timeout => rw [hp] at hn; cases hn
      | ok size =>
        rw [hp] at hn
        cases hn
        exact stored_replicate_null _ k v a
    · exact a

theorem hash_insert_content :
    ∀ (fuel : Nat) (ht : ht_hash_table) (key value : List Int) (r : ht_hash_table),
      hash_insert fuel ht key value = Res.ok r → ∀ k v, stored r.items k v →
      (k = key ∧ v = value) ∨ stored ht.items k v := by
  intro fuel
  induction fuel with
  | zero => intro ht key value r h; cases h
  | succ n ih =>
    intro ht key value r h k v hs
    rw [hash_insert] at h
    by_cases hl : (ht.count * 100).tdiv ht.size > 70
    · simp only [hl, if_true] at h
      cases hr : ht_resize_with (fun t k v => hash_insert n t k v) n ht (ht.base_size * 2) with
      | undefined => rw [hr] at h; cases h
      | timeout => rw [hr] at h; cases h
      | ok ht1 =>
        rw [hr] at h
        rcases hash_insert_loop_content h k v hs with a | a
        · exact Or.inl a
        · exact Or.inr (ht_resize_with_content (fun t k v t1 => ih t k v t1) hr k v a)
    · simp only [hl, if_false] at h
      exact hash_insert_loop_content h k v hs

/-! ## Where `hash_insert` puts a new key -/

theorem table_a_deleted_lacks_a (j : Nat) (v : List Int) :
    table_a_deleted.items[j]? ≠ some (ItemPtr.item ⟨cstr "a", v⟩) := by
  intro h
  have hm := List.getElem?_mem h
  have hs : table_a_deleted.items = List.set (List.replicate 47 ItemPtr.null) 3
      ItemPtr.deleted := rfl
  rw [hs] at hm
  rcases List.mem_or_eq_of_mem_set hm with h1 | h1
  · have := List.eq_of_mem_replicate h1
    cases this
  · cases h1

/-- C13 as stated fails on the code: `"a"` is not stored in the table whose cell `3`,
attempt `0` of `"a"`, is the deleted marker; `hash_insert(ht, "a", _)` leaves the marker
in cell `3` and stores the entry in cell `7`, attempt `1`. -/
theorem insert_skips_deleted_marker :
    ht_get_hash (cstr "a") 47 0 = 3 ∧ ht_get_hash (cstr "a") 47 1 = 7 ∧
    read_item table_a_deleted.items (ht_get_hash (cstr "a") table_a_deleted.size 0)
      = Res.ok ItemPtr.deleted ∧
    (∀ fuel, hash_insert (fuel + 2) table_a_deleted (cstr "a") (cstr "password11")
      = Res.ok table_a_again) ∧
    read_item table_a_again.items (ht_get_hash (cstr "a") table_a_again.size 0)
      = Res.ok ItemPtr.deleted ∧
    read_item table_a_again.items (ht_get_hash (cstr "a") table_a_again.size 1)
      = Res.ok (ItemPtr.item ⟨cstr "a", cstr "password11"⟩) ∧
    table_a_again.count = table_a_deleted.count + 1 :=
  ⟨by decide!, by decide!, by decide!, fun _ => rfl, by decide!, by decide!, by decide⟩

/-- C13 as amended: for every table and every key not stored in it, a `hash_insert` that
returns has stored the new entry, in the table as it is after the growth step (if the
load was above 70), in the first cell of the key's probe sequence that is `NULL`: every
earlier attempt met a cell that is not `NULL` (an item or a deleted marker, which is
skipped and not reused); `count` is one more than after the growth step. -/
theorem insert_new_key_first_null (fuel : Nat) (ht r : ht_hash_table)
    (key value : List Int)
    (habsent : ∀ (j : Nat) (v : List Int), ht.items[j]? ≠ some (ItemPtr.item ⟨key, v⟩))
    (h : hash_insert fuel ht key value = Res.ok r) :
    ∃ ht1 : ht_hash_table,
      ((¬ (ht.count * 100).tdiv ht.size > 70 ∧ ht1 = ht) ∨
        ((ht.count * 100).tdiv ht.size > 70 ∧ ht_resize_up (fuel - 1) ht = Res.ok ht1)) ∧
      ∃ a : Nat,
        read_item ht1.items (ht_get_hash key ht1.size a) = Res.ok ItemPtr.null ∧
        (∀ b : Nat, b < a → ∃ p,
          read_item ht1.items (ht_get_hash key ht1.size b) = Res.ok p ∧
            p ≠ ItemPtr.null) ∧
        r = ⟨ht1.base_size, ht1.size, ht1.count + 1,
          write_item ht1.items (ht_get_hash key ht1.size a)
            (ItemPtr.item ⟨key, value⟩)⟩ := by
  cases fuel with
  | zero => cases h
  | succ n =>
    have probe : ∀ ht1 : ht_hash_table,
        (∀ (j : Nat) (v : List Int), ht1.items[j]? ≠ some (ItemPtr.item ⟨key, v⟩)) →
        hash_insert_loop ht1 key value (n + 1) (ht_get_hash key ht1.size 0) = Res.ok r →
        ∃ a : Nat,
          read_item ht1.items (ht_get_hash key ht1.size a) = Res.ok ItemPtr.null ∧
          (∀ b : Nat, b < a → ∃ p,
            read_item ht1.items (ht_get_hash key ht1.size b) = Res.ok p ∧
              p ≠ ItemPtr.null) ∧
          r = ⟨ht1.base_size, ht1.size, ht1.count + 1,
            write_item ht1.items (ht_get_hash key ht1.size a)
              (ItemPtr.item ⟨key, value⟩)⟩ := by
      intro ht1 hab hl
      obtain ⟨idx, p, hp, hidx, hres⟩ := hash_insert_loop_shape _ _ r hl
      rcases hres with ⟨rfl, hr⟩ | ⟨cur, rfl, hk, _⟩
      · rcases hidx with rfl | ⟨rfl, p0, hp0, hn, _⟩
        · refine ⟨0, by simpa using hp, fun b hb => absurd hb (Nat.not_lt_zero b), ?_⟩
          simpa using hr
        · refine ⟨1, by simpa using hp, fun b hb => ?_, by simpa using hr⟩
          have hb0 : b = 0 := by omega
          subst hb0
          exact ⟨p0, by simpa using hp0, hn⟩
      · exfalso
        have hg := (read_item_ok hp).2
        apply hab idx.toNat cur.value
        rw [hg, ← hk]
    rw [hash_insert] at h
    by_cases hl : (ht.count * 100).tdiv ht.size > 70
    · simp only [hl, if_true] at h
      cases hr : ht_resize_with (fun t k v => hash_insert n t k v) n ht (ht.base_size * 2) with
      | undefined => rw [hr] at h; cases h
      | timeout => rw [hr] at h; cases h
      | ok ht1 =>
        rw [hr] at h
        refine ⟨ht1, Or.inr ⟨hl, hr⟩, probe ht1 ?_ h⟩
        intro j v hj
        obtain ⟨i, hi⟩ := ht_resize_with_content
          (fun t k v t1 => hash_insert_content n t k v t1) hr key v ⟨j, hj⟩
        exact habsent i v hi
    · simp only [hl, if_false] at h
      exact ⟨ht, Or.inl ⟨hl, rfl⟩, probe ht habsent h⟩

theorem insert_new_key_first_null_witness :
    (∀ (j : Nat) (v : List Int),
      table_a_deleted.items[j]? ≠ some (ItemPtr.item ⟨cstr "a", v⟩)) ∧
    hash_insert 2 table_a_deleted (cstr "a") (cstr "password11") = Res.ok table_a_again ∧
    ∃ ht1 : ht_hash_table,
      ((¬ (table_a_deleted.count * 100).tdiv table_a_deleted.size > 70 ∧
          ht1 = table_a_deleted) ∨
        ((table_a_deleted.count * 100).tdiv table_a_deleted.size > 70 ∧
          ht_resize_up (2 - 1) table_a_deleted = Res.ok ht1)) ∧
      ∃ a : Nat,
        read_item ht1.items (ht_get_hash (cstr "a") ht1.size a) = Res.ok ItemPtr.null ∧
        (∀ b : Nat, b < a → ∃ p,
          read_item ht1.items (ht_get_hash (cstr "a") ht1.size b) = Res.ok p ∧
            p ≠ ItemPtr.null) ∧
        table_a_again = ⟨ht1.base_size, ht1.size, ht1.count + 1,
          write_item ht1.items (ht_get_hash (cstr "a") ht1.size a)
            (ItemPtr.item ⟨cstr "a", cstr "password11"⟩)⟩ :=
  ⟨table_a_deleted_lacks_a, by decide!,
    insert_new_key_first_null 2 table_a_deleted table_a_again (cstr "a")
      (cstr "password11") table_a_deleted_lacks_a (by decide!)⟩

/-! ## `hash_insert` on compact tables -/

/-- Under the invariant, a returning probe of `hash_insert` writes a cell that was
`NULL` or held the key, and no other cell holds the key. -/
theorem hash_insert_loop_cell {ht r : ht_hash_table} {key value : List Int} {fuel : Nat}
    (hinv : table_inv ht)
    (h : hash_insert_loop ht key value fuel (ht_get_hash key ht.size 0) = Res.ok r) :
    ∃ j : Nat, r.items = ht.items.set j (ItemPtr.item ⟨key, value⟩) ∧
      r.size = ht.size ∧ r.base_size = ht.base_size ∧
      (∀ i, i ≠ j → ¬ holds ht.items i key) ∧
      ((ht.items[j]? = some ItemPtr.null ∧ r.count = ht.count + 1) ∨
        (∃ cur, ht.items[j]? = some (ItemPtr.item cur) ∧ cur.key = key ∧
          r.count = ht.count)) := by
  obtain ⟨idx, p, hp, hidx, hres⟩ := hash_insert_loop_shape _ _ r h
  obtain ⟨hnn, hg⟩ := read_item_ok hp
  have hj : ((idx.toNat : Nat) : Int) = idx := Int.toNat_of_nonneg hnn
  rcases hres with ⟨rfl, hr⟩ | ⟨cur, rfl, hk, hr⟩
  · refine ⟨idx.toNat, by rw [hr]; rfl, by rw [hr], by rw [hr], ?_,
      Or.inl ⟨hg, by rw [hr]⟩⟩
    intro i hne hold
    rcases hidx with rfl | ⟨rfl, p0, hp0, hn, hkk⟩
    · rcases hinv.placed i key hold with e0 | ⟨_, q, hq, hqn⟩
      · exact hne (by omega)
      · rw [hp] at hq
        cases hq
        exact hqn rfl
    · rcases hinv.placed i key hold with e0 | ⟨e1, _⟩
      · obtain ⟨v, hv⟩ := hold
        obtain ⟨h0nn, hg0⟩ := read_item_ok hp0
        have : i = (ht_get_hash key ht.size 0).toNat := by omega
        rw [this, hg0] at hv
        exact hkk v (Option.some.inj hv)
      · exact hne (by omega)
  · refine ⟨idx.toNat, by rw [hr]; rfl, by rw [hr], by rw [hr], ?_,
      Or.inr ⟨cur, hg, hk, by rw [hr]⟩⟩
    intro i hne hold
    exact hne (hinv.unique _ _ _ hold ⟨cur.value, by rw [hg, ← hk]⟩)

theorem hash_insert_loop_compact {ht r : ht_hash_table} {key value : List Int}
    {fuel : Nat} (hc : compact ht)
    (h : hash_insert_loop ht key value fuel (ht_get_hash key ht.size 0) = Res.ok r) :
    compact r ∧
    (∀ k1 v1, stored r.items k1 v1 ↔
      (k1 = key ∧ v1 = value) ∨ (k1 ≠ key ∧ stored ht.items k1 v1)) ∧
    r.base_size = ht.base_size ∧ r.size = ht.size ∧
    ((∀ v1, ¬ stored ht.items key v1) → r.count = ht.count + 1) := by
  obtain ⟨hinv, hnt, hcnt⟩ := hc
  have hcok : count_ok ht := by unfold count_ok; omega
  obtain ⟨hinv1, _⟩ := hash_insert_loop_inv hinv hcok fuel r h
  obtain ⟨j, hitems, hs, hb, hother, hcell⟩ := hash_insert_loop_cell hinv h
  have hold_j : ∀ k1 v1, ht.items[j]? = some (ItemPtr.item ⟨k1, v1⟩) → k1 = key := by
    intro k1 v1 hg
    rcases hcell with ⟨hn, _⟩ | ⟨cur, hcur, hk, _⟩
    · rw [hn] at hg; cases hg
    · rw [hcur] at hg
      cases hg
      exact hk
  have hjlt : j < ht.items.length := by
    rcases hcell with ⟨hn, _⟩ | ⟨cur, hcur, _, _⟩
    · exact lt_length_of_get hn
    · exact lt_length_of_get hcur
  refine ⟨⟨hinv1, ?_, ?_⟩, ?_, hb, hs, ?_⟩
  · unfold no_tombstone
    rw [hitems]
    intro hm
    rcases List.mem_or_eq_of_mem_set hm with h1 | h1
    · exact hnt h1
    · cases h1
  · rcases hcell with ⟨hn, hc1⟩ | ⟨cur, hcur, _, hc1⟩
    · have := occupied_set_item (⟨key, value⟩ : ht_item) hn
      simp [is_item] at this
      rw [hitems, hc1, hcnt, this]
      push_cast
      ring
    · have := occupied_set_item (⟨key, value⟩ : ht_item) hcur
      simp [is_item] at this
      rw [hitems, hc1, hcnt, this]
  · intro k1 v1
    constructor
    · rintro ⟨i, hi⟩
      rw [hitems] at hi
      rcases holds_set ⟨v1, hi⟩ with ⟨rfl, w, hw⟩ | ⟨hne, hold⟩
      · left
        cases hw
        rw [List.getElem?_set] at hi
        simp only [if_true, hjlt] at hi
        cases hi
        exact ⟨rfl, rfl⟩
      · right
        rw [List.getElem?_set_ne (Ne.symm hne)] at hi
        refine ⟨?_, i, hi⟩
        rintro rfl
        exact hother i hne hold
    · rintro (⟨rfl, rfl⟩ | ⟨hne, i, hi⟩)
      · refine ⟨j, ?_⟩
        rw [hitems, List.getElem?_set]
        simp [hjlt]
      · refine ⟨i, ?_⟩
        have hij : j ≠ i := by
          rintro rfl
          exact hne (hold_j _ _ hi)
        rw [hitems, List.getElem?_set_ne hij]
        exact hi
  · intro habs
    rcases hcell with ⟨_, hc1⟩ | ⟨cur, hcur, hk, _⟩
    · exact hc1
    · exfalso
      exact habs cur.value ⟨j, by rw [hcur, ← hk]⟩

/-! ## `ht_resize` rebuilds the content -/

theorem stored_cons_iff (c : ItemPtr) (rest : List ItemPtr) (k v : List Int) :
    stored (c :: rest) k v ↔ c = ItemPtr.item ⟨k, v⟩ ∨ stored rest k v := by
  constructor
  · rintro ⟨j, hj⟩
    cases j with
    | zero =>
      left
      simpa using hj
    | succ i =>
      right
      exact ⟨i, by simpa using hj⟩
  · rintro (rfl | ⟨i, hi⟩)
    · exact ⟨0, by simp⟩
    · exact ⟨i + 1, by simpa using hi⟩

theorem load_le_of_count_le {c b size : Int} (hc : 0 ≤ c) (hcb : c ≤ b) (hs : 0 < size)
    (hb : (b * 100).tdiv size ≤ 70) : ¬ (c * 100).tdiv size > 70 := by
  rw [Int.tdiv_eq_ediv (by omega) (by omega)] at hb
  rw [Int.tdiv_eq_ediv (by omega) (by omega)]
  have := Int.ediv_le_ediv hs (show c * 100 ≤ b * 100 by omega)
  omega

theorem ht_resize_loop_compact
    {ins : ht_hash_table → List Int → List Int → Res ht_hash_table}
    (hins : insert_contract ins) :
    ∀ (cells : List ItemPtr) (new_ht r : ht_hash_table),
      compact new_ht →
      (∀ (i j : Nat) (k : List Int), holds cells i k → holds cells j k → i = j) →
      (∀ (k v : List Int), stored new_ht.items k v → ∀ i, ¬ holds cells i k) →
      ht_resize_loop ins cells new_ht = Res.ok r →
      compact r ∧
      (∀ k v, stored r.items k v ↔ stored new_ht.items k v ∨ stored cells k v) ∧
      (∃ n : Nat, r.base_size = new_ht.base_size * 2 ^ n) ∧
      (0 < new_ht.size →
        ((new_ht.count + occupied cells - 1) * 100).tdiv new_ht.size ≤ 70 →
        r.base_size = new_ht.base_size ∧ r.size = new_ht.size) := by
  intro cells
  induction cells with
  | nil =>
    intro new_ht r hc _ _ h
    simp only [ht_resize_loop] at h
    cases h
    refine ⟨hc, fun k v => ?_, ⟨0, by simp⟩, fun _ _ => ⟨rfl, rfl⟩⟩
    constructor
    · exact Or.inl
    · rintro (a | ⟨j, hj⟩)
      · exact a
      · simp at hj
  | cons c rest ih =>
    intro new_ht r hc huniq hdisj h
    have huniq1 : ∀ (i j : Nat) (k : List Int), holds rest i k → holds rest j k → i = j := by
      intro i j k ⟨v, hi⟩ ⟨w, hj⟩
      have := huniq (i + 1) (j + 1) k ⟨v, by simpa using hi⟩ ⟨w, by simpa using hj⟩
      omega
    have hdisj1 : ∀ (k v : List Int), stored new_ht.items k v → ∀ i, ¬ holds rest i k := by
      intro k v hs i ⟨w, hi⟩
      exact hdisj k v hs (i + 1) ⟨w, by simpa using hi⟩
    cases c with
    | null =>
      obtain ⟨h1, h2, h3, h4⟩ := ih new_ht r hc huniq1 hdisj1
        (by simpa only [ht_resize_loop] using h)
      have ho : occupied (ItemPtr.null :: rest) = occupied rest := by
        simp [occupied, is_item]
      refine ⟨h1, fun k v => ?_, h3, by rw [ho]; exact h4⟩
      rw [h2, stored_cons_iff]
      simp
    | deleted =>
      obtain ⟨h1, h2, h3, h4⟩ := ih new_ht r hc huniq1 hdisj1
        (by simpa only [ht_resize_loop] using h)
      have ho : occupied (ItemPtr.deleted :: rest) = occupied rest := by
        simp [occupied, is_item]
      refine ⟨h1, fun k v => ?_, h3, by rw [ho]; exact h4⟩
      rw [h2, stored_cons_iff]
      simp
    | item it =>
      simp only [ht_resize_loop] at h
      cases hr : ins new_ht it.key it.value with
      | undefined => rw [hr] at h; cases h
      | timeout => rw [hr] at h; cases h
      | ok n1 =>
        rw [hr] at h
        obtain ⟨hc1, hcont, ⟨m, hm⟩, hkeep⟩ := hins _ _ _ _ hc hr
        have hnew_no : ∀ v, ¬ stored new_ht.items it.key v := by
          intro v hs
          exact hdisj it.key v hs 0 ⟨it.value, by simp⟩
        have hdisj2 : ∀ (k v : List Int), stored n1.items k v → ∀ i, ¬ holds rest i k := by
          intro k v hs i hi
          rcases (hcont k v).1 hs with ⟨rfl, _⟩ | ⟨_, hold⟩
          · obtain ⟨w, hw⟩ := hi
            have := huniq 0 (i + 1) it.key ⟨it.value, by simp⟩ ⟨w, by simpa using hw⟩
            omega
          · exact hdisj1 k v hold i hi
        obtain ⟨h1, h2, ⟨n, hn⟩, h4⟩ := ih n1 r hc1 huniq1 hdisj2 h
        have ho : occupied (ItemPtr.item it :: rest) = occupied rest + 1 := by
          simp [occupied, is_item]
        refine ⟨h1, fun k v => ?_, ⟨m + n, by rw [hn, hm, pow_add]; ring⟩, ?_⟩
        · rw [h2, hcont, stored_cons_iff]
          constructor
          · rintro ((⟨rfl, rfl⟩ | ⟨_, hs⟩) | hs)
            · exact Or.inr (Or.inl rfl)
            · exact Or.inl hs
            · exact Or.inr (Or.inr hs)
          · rintro (hs | h0 | hs)
            · refine Or.inl (Or.inr ⟨?_, hs⟩)
              rintro rfl
              exact hnew_no v hs
            · cases h0
              exact Or.inl (Or.inl ⟨rfl, rfl⟩)
            · exact Or.inr hs
        · intro hpos hload
          rw [ho] at hload
          have hcnt := hc.2.2
          have hnl : ¬ (new_ht.count * 100).tdiv new_ht.size > 70 := by
            apply load_le_of_count_le (by omega) ?_ hpos hload
            push_cast
            omega
          obtain ⟨e1, e2, e3⟩ := hkeep hnl
          have e4 := e3 hnew_no
          have := h4 (by rw [e2]; exact hpos) (by
            rw [e2, e4]
            have : new_ht.count + 1 + (occupied rest : Int) - 1
                = new_ht.count + ((occupied rest + 1 : Nat) : Int) - 1 := by
              push_cast
              ring
            rw [this]
            exact hload)
          rw [this.1, this.2, e1, e2]
          exact ⟨rfl, rfl⟩

theorem ht_new_sized_compact {fuel : Nat} {base_size : Int} {t : ht_hash_table}
    (hb : 47 ≤ base_size) (h : ht_new_sized fuel base_size = Res.ok t) :
    compact t ∧ (∀ k v, ¬ stored t.items k v) ∧ t.base_size = base_size ∧
    next_prime fuel base_size = Res.ok t.size ∧ t.count = 0 := by
  obtain ⟨hinv, _⟩ := ht_new_sized_inv hb h
  unfold ht_new_sized at h
  cases hn : next_prime fuel base_size with
  | undefined => rw [hn] at h; cases h
  | timeout => rw [hn] at h; cases h
  | ok size =>
    rw [hn] at h
    cases h
    refine ⟨⟨hinv, ?_, ?_⟩, fun k v => stored_replicate_null _ k v, rfl, rfl, rfl⟩
    · intro hm
      have := List.eq_of_mem_replicate hm
      cases this
    · have hz : List.countP is_item (List.replicate size.toNat ItemPtr.null) = 0 := by
        rw [List.countP_eq_zero]
        intro a ha
        rw [List.eq_of_mem_replicate ha]
        simp [is_item]
      simp [occupied, hz]

theorem ht_resize_with_compact
    {ins : ht_hash_table → List Int → List Int → Res ht_hash_table}
    (hins : insert_contract ins)
    {fuel : Nat} {ht r : ht_hash_table} {base_size : Int}
    (hinv : table_inv ht) (hb : 47 ≤ base_size)
    (h : ht_resize_with ins fuel ht base_size = Res.ok r) :
    compact r ∧ (∀ k v, stored r.items k v ↔ stored ht.items k v) ∧
    (∃ n : Nat, r.base_size = base_size * 2 ^ n) ∧
    ∃ p, next_prime fuel base_size = Res.ok p ∧
      ((((occupied ht.items : Int) - 1) * 100).tdiv p ≤ 70 →
        r.base_size = base_size ∧ r.size = p) := by
  have hb1 : ¬ base_size < HT_INITIAL_BASE_SIZE := by
    simp only [HT_INITIAL_BASE_SIZE]
    omega
  obtain ⟨new_ht, hn, hl, _⟩ := ht_resize_with_ok hb1 h
  obtain ⟨hc, hempty, hbase, hsize, hcount⟩ := ht_new_sized_compact hb hn
  obtain ⟨h1, h2, ⟨n, hn1⟩, h4⟩ := ht_resize_loop_compact hins ht.items new_ht r hc
    hinv.unique (fun k v hs => absurd hs (hempty k v)) hl
  refine ⟨h1, fun k v => ?_, ⟨n, by rw [hn1, hbase]⟩, new_ht.size, hsize, ?_⟩
  · rw [h2]
    constructor
    · rintro (a | a)
      · exact absurd a (hempty k v)
      · exact a
    · exact Or.inr
  · intro hload
    have hpos : 0 < new_ht.size := by
      have := hc.1.size_ge
      have := hc.1.base_ge
      omega
    have := h4 hpos (by rw [hcount, zero_add]; exact hload)
    rw [this.1, this.2, hbase]
    exact ⟨rfl, rfl⟩

theorem hash_insert_contract (fuel : Nat) :
    insert_contract (fun t k v => hash_insert fuel t k v) := by
  induction fuel with
  | zero => intro t k v r _ h; cases h
  | succ n ih =>
    intro t k v r hc h
    simp only at h
    rw [hash_insert] at h
    by_cases hl : (t.count * 100).tdiv t.size > 70
    · simp only [hl, if_true] at h
      cases hr : ht_resize_with (fun t k v => hash_insert n t k v) n t (t.base_size * 2) with
      | undefined => rw [hr] at h; cases h
      | timeout => rw [hr] at h; cases h
      | ok ht1 =>
        rw [hr] at h
        have hb := hc.1.base_ge
        obtain ⟨hc1, hcont1, ⟨m, hm⟩, _⟩ := ht_resize_with_compact ih hc.1 (by omega) hr
        obtain ⟨hc2, hcont2, hb2, _, _⟩ := hash_insert_loop_compact hc1 h
        refine ⟨hc2, fun k1 v1 => ?_, ⟨m + 1, ?_⟩, fun hnl => absurd hl hnl⟩
        · rw [hcont2, hcont1]
        · rw [hb2, hm, pow_succ]
          ring
    · simp only [hl, if_false] at h
      obtain ⟨hc2, hcont2, hb2, hs2, hcnt2⟩ := hash_insert_loop_compact hc h
      exact ⟨hc2, hcont2, ⟨0, by rw [hb2]; simp⟩, fun _ => ⟨hb2, hs2, hcnt2⟩⟩

/-! ## Search in a compact table -/

/-- In a compact table a stored key is found by `hash_search` within two probes. -/
theorem hash_search_finds {t : ht_hash_table} (hc : compact t) {k v : List Int}
    (hs : stored t.items k v) (f : Nat) : hash_search (f + 2) t k = Res.ok (some v) := by
  obtain ⟨hinv, hnt, _⟩ := hc
  obtain ⟨j, hj⟩ := hs
  unfold hash_search
  rw [hash_search_loop]
  rcases hinv.placed j k ⟨v, hj⟩ with e0 | ⟨e1, p, hp, hpn⟩
  · have hrd := read_item_of_get hj
    rw [e0] at hrd
    simp only [hrd, if_true]
  · obtain ⟨h0nn, hg0⟩ := read_item_ok hp
    have hrd1 := read_item_of_get hj
    rw [e1] at hrd1
    cases p with
    | null => exact absurd rfl hpn
    | deleted => exact absurd (List.getElem?_mem hg0) hnt
    | item cur =>
      simp only [hp]
      by_cases hk : cur.key = k
      · have hsame := hinv.unique _ _ k ⟨cur.value, by rw [hg0, ← hk]⟩ ⟨v, hj⟩
        rw [hsame, hj] at hg0
        cases hg0
        simp
      · simp only [hk, if_false]
        rw [hash_search_loop]
        simp only [hrd1, if_true]

theorem reachable_by_insert_compact {t : ht_hash_table} (h : ReachableByInsert t) :
    compact t := by
  induction h with
  | new fuel t h =>
    exact (ht_new_sized_compact (by simp [HT_INITIAL_BASE_SIZE]) h).1
  | insert fuel t t1 key value _ h ih => exact (hash_insert_contract fuel t key value t1 ih h).1

theorem reachable_by_insert_table_a : ReachableByInsert table_a :=
  ReachableByInsert.insert 1 _ _ (cstr "a") (cstr "password11")
    (ReachableByInsert.new 1 empty_table (by decide!)) (by decide!)

/-- C20: for every table reached from `ht_new()` by `hash_insert` calls only (it holds
no deleted marker) and every key and value for which `hash_insert(ht, k, v)` returns,
the following `hash_search(ht, k)` returns `v` (two probes suffice), and every key
stored before the call, which `hash_search` found with its value then, is still found:
with its previous value, or with `v` if it is `k` itself. -/
theorem insert_only_roundtrip (t : ht_hash_table) (ht : ReachableByInsert t)
    (fuel : Nat) (key value : List Int) (r : ht_hash_table)
    (h : hash_insert fuel t key value = Res.ok r) :
    no_tombstone t.items ∧
    (∀ f, hash_search (f + 2) r key = Res.ok (some value)) ∧
    ∀ k1 v1, stored t.items k1 v1 → ∀ f,
      hash_search (f + 2) t k1 = Res.ok (some v1) ∧
      hash_search (f + 2) r k1 = Res.ok (some (if k1 = key then value else v1)) := by
  have hc := reachable_by_insert_compact ht
  obtain ⟨hc1, hcont, _, _⟩ := hash_insert_contract fuel t key value r hc h
  refine ⟨hc.2.1, fun f => hash_search_finds hc1 ((hcont key value).2 (Or.inl ⟨rfl, rfl⟩)) f,
    fun k1 v1 hs f => ⟨hash_search_finds hc hs f, ?_⟩⟩
  by_cases hk : k1 = key
  · subst hk
    simp only [if_true]
    exact hash_search_finds hc1 ((hcont k1 value).2 (Or.inl ⟨rfl, rfl⟩)) f
  · simp only [hk, if_false]
    exact hash_search_finds hc1 ((hcont k1 v1).2 (Or.inr ⟨hk, hs⟩)) f

theorem insert_only_roundtrip_witness :
    ReachableByInsert table_a ∧
    hash_insert 2 table_a (cstr "2") (cstr "password22") = Res.ok table_a_2 ∧
    no_tombstone table_a.items ∧
    (∀ f, hash_search (f + 2) table_a_2 (cstr "2") = Res.ok (some (cstr "password22"))) ∧
    ∀ k1 v1, stored table_a.items k1 v1 → ∀ f,
      hash_search (f + 2) table_a k1 = Res.ok (some v1) ∧
      hash_search (f + 2) table_a_2 k1
        = Res.ok (some (if k1 = cstr "2" then cstr "password22" else v1)) :=
  ⟨reachable_by_insert_table_a, by decide!,
    insert_only_roundtrip table_a reachable_by_insert_table_a 2 (cstr "2")
      (cstr "password22") table_a_2 (by decide!)⟩

/-! ## `ht_resize` on a table that holds a deleted marker -/

theorem ht_new_sized_mono_le {fuel : Nat} {base_size : Int} {t : ht_hash_table}
    (h : ht_new_sized fuel base_size = Res.ok t) :
    ∀ more : Nat, ht_new_sized (fuel + more) base_size = Res.ok t := by
  intro more
  induction more with
  | zero => exact h
  | succ m ih => exact ht_new_sized_mono ih

theorem hash_insert_mono_le {fuel : Nat} (more : Nat) :
    ∀ (ht : ht_hash_table) (key value : List Int) (r : ht_hash_table),
      hash_insert fuel ht key value = Res.ok r →
      hash_insert (fuel + more) ht key value = Res.ok r := by
  induction more with
  | zero => intro ht key value r h; exact h
  | succ m ih => intro ht key value r h; exact hash_insert_mono _ _ _ _ _ (ih _ _ _ _ h)

/-- A resize whose re-insertions return, on an array that holds a deleted marker, ends
in the undefined `free` of the marker, whatever the fuel beyond what the re-insertions
need. -/
theorem ht_resize_teardown_undefined {fuel : Nat} {ht new_ht ht1 : ht_hash_table}
    {base_size : Int} (hb : ¬ base_size < HT_INITIAL_BASE_SIZE)
    (hn : ht_new_sized fuel base_size = Res.ok new_ht)
    (hl : ht_resize_loop (fun t k v => hash_insert fuel t k v) ht.items new_ht = Res.ok ht1)
    (hd : ht_del_hash_table ht.items = Res.undefined) (more : Nat) :
    ht_resize (fuel + more) ht base_size = Res.undefined :=
  ht_resize_with_teardown_undefined hb (ht_new_sized_mono_le hn more)
    (ht_resize_loop_mono (fun t k v r h => hash_insert_mono_le more t k v r h) _ _ _ hl) hd

theorem reachable_table_o_deleted : Reachable table_o_deleted :=
  Reachable.delete 2 table_o _ (cstr "O")
    (Reachable.insert 1 _ _ (cstr "O") (cstr "v") reachable_empty_table (by decide!))
    (by decide!)

theorem reachable_table_34_marked : Reachable table_34_marked :=
  reachable_insert_all 1 keys_34 table_o_deleted table_34_marked reachable_table_o_deleted
    (by decide!)

/-- C11 (resize compacts and preserves content), evaluated on the code: on a table that
holds a deleted marker `ht_resize` re-inserts the live items and then tears the old
array down with `ht_del_hash_table`, which passes the marker to `ht_del_item` and frees
the static `HT_DELETED_ITEM`: undefined behaviour instead of a compacted table.  So for
`ht_resize(ht, 94)` after `insert a; delete a`, and, through the interface, for
`hash_insert(ht, "C", "v")` on the table of 34 keys and one deleted marker, whose load
72 starts the growth. -/
theorem resize_frees_deleted_marker :
    Reachable table_a_deleted ∧ (47 : Int) ≤ 94 ∧
    (∀ more : Nat, ht_resize (4 + more) table_a_deleted 94 = Res.undefined) ∧
    Reachable table_34_marked ∧
    (table_34_marked.count * 100).tdiv table_34_marked.size > 70 ∧
    ht_resize_loop (fun t k v => hash_insert 4 t k v) table_34_marked.items empty_table_94
      = Res.ok table_34_grown ∧
    ht_del_hash_table table_34_marked.items = Res.undefined ∧
    ∀ more : Nat,
      hash_insert (5 + more) table_34_marked (cstr "C") (cstr "v") = Res.undefined := by
  have hb : ¬ (94 : Int) < HT_INITIAL_BASE_SIZE := by decide
  have hn : ht_new_sized 4 94 = Res.ok empty_table_94 := by decide!
  have hl : ht_resize_loop (fun t k v => hash_insert 4 t k v) table_34_marked.items
      empty_table_94 = Res.ok table_34_grown := by decide!
  have hd : ht_del_hash_table table_34_marked.items = Res.undefined := by decide!
  refine ⟨reachable_table_a_deleted, by decide, fun more => ?_, reachable_table_34_marked,
    by decide!, hl, hd, fun more => ?_⟩
  · exact ht_resize_teardown_undefined hb hn
      (by decide! : ht_resize_loop (fun t k v => hash_insert 4 t k v) table_a_deleted.items
        empty_table_94 = Res.ok empty_table_94)
      (by decide!) more
  · have hload : (table_34_marked.count * 100).tdiv table_34_marked.size > 70 := by decide!
    have hbase : table_34_marked.base_size * 2 = 94 := by decide!
    have hres := ht_resize_teardown_undefined hb hn hl hd more
    unfold ht_resize at hres
    rw [show 5 + more = (4 + more) + 1 by omega, hash_insert]
    simp only [hload, if_true, hbase, hres]

/-! ## What a returning `ht_resize` leaves -/

theorem reachable_table_35 : Reachable table_35 :=
  Reachable.insert 5 table_34 table_35 (cstr "C") (cstr "v") reachable_table_34 (by decide!)

/-- On the reachable table of 35 keys (base size 94, capacity 97, no deleted marker),
`ht_resize(ht, 47)` rebuilds it in a table of capacity 47; the 35th re-insertion finds the
load at 72 and grows that table, so the call ends with base size 94 and capacity 97. -/
theorem resize_regrows_past_target :
    Reachable table_35 ∧ (47 : Int) ≤ 47 ∧ Nat.Prime 47 ∧
    (∀ more : Nat, ht_resize (5 + more) table_35 47 = Res.ok table_35) ∧
    table_35.base_size = 94 ∧ table_35.size = 97 ∧ ¬ table_35.size ≤ 47 :=
  ⟨reachable_table_35, by decide, by norm_num,
    ht_resize_mono_le (by decide! : ht_resize 5 table_35 47 = Res.ok table_35),
    rfl, rfl, by decide⟩

/-- When `ht_resize(ht, base_size)` with `base_size ≥ 47` returns on a reachable table,
the old array held no deleted marker, the new array holds none, its occupied cells hold
exactly the (key, value) pairs the occupied cells held before, `count` is the number of
occupied cells, the `base_size` field is the requested one doubled some number of times
and `size` is the smallest prime at or above that field. -/
theorem ht_resize_returns_compact (t : ht_hash_table) (ht : Reachable t) (base_size : Int)
    (hb : 47 ≤ base_size) (fuel : Nat) (r : ht_hash_table)
    (h : ht_resize fuel t base_size = Res.ok r) :
    ht_del_hash_table t.items = Res.ok () ∧
    no_tombstone r.items ∧
    (∀ k v, stored r.items k v ↔ stored t.items k v) ∧
    r.count = occupied r.items ∧
    (∃ n : Nat, r.base_size = base_size * 2 ^ n) ∧
    (r.base_size ≤ r.size ∧ Nat.Prime r.size.toNat ∧
      ∀ q : Nat, Nat.Prime q → r.base_size ≤ q → r.size ≤ q) ∧
    ∃ p, next_prime fuel base_size = Res.ok p ∧
      ((((occupied t.items : Int) - 1) * 100).tdiv p ≤ 70 →
        r.base_size = base_size ∧ r.size = p) := by
  obtain ⟨hinv, _⟩ := reachable_inv ht
  have hb1 : ¬ base_size < HT_INITIAL_BASE_SIZE := by
    simp only [HT_INITIAL_BASE_SIZE]
    omega
  obtain ⟨_, _, _, hd⟩ := ht_resize_with_ok hb1 h
  obtain ⟨hc, hcont, hpow, hfine⟩ :=
    ht_resize_with_compact (hash_insert_contract fuel) hinv hb h
  exact ⟨hd, hc.2.1, hcont, hc.2.2, hpow,
    ⟨hc.1.size_ge, hc.1.size_prime, hc.1.size_least⟩, hfine⟩

end HashTable
